import Mathlib

/-!
Verification of the translator-ai translation pipeline.

This file embeds the core of `src/index.ts` (single-file and multi-file
processing), `src/translators/base.ts` (response validation) and the cache
helpers as pure Lean definitions, and proves or refutes the specification
claims about them.

Modelling conventions:
* JSON documents are an inductive tree (`Json`); JavaScript `Map` objects
  are association lists with insert-or-overwrite (`setAssoc`) semantics.
* The translation backend is an oracle `List String → Option (List String)`;
  `none` models a thrown error.
* The rebuild (`applyTranslations`) is modelled faithfully to its root
  navigation: each triggered leaf's translation is assigned by walking the
  recorded path from the document root, with every bracket-shaped segment
  reinterpreted through `parseInt`; a navigation step or assignment that
  would throw a `TypeError` makes the rebuild `none`, aborting the run's
  output.
* `helpers.ts` is not part of the given sources; the functions imported from
  it (`hashString`, `flattenObjectWithPaths`, `preserveFormats`,
  `restoreFormats`) are modelled from the specification, as indicated on
  their doc comments.
-/

namespace TranslatorAi

/-! ## JSON documents -/

mutual

/-- A JSON document: an ordered tree of objects, arrays and leaves. -/
inductive Json where
  | str (s : String)
  | num (n : Int)
  | bool (b : Bool)
  | null
  | arr (xs : JsonArr)
  | obj (fs : JsonObj)

/-- An ordered sequence of JSON values (array elements). -/
inductive JsonArr where
  | nil
  | cons (hd : Json) (tl : JsonArr)

/-- An ordered mapping of keys to JSON values (object fields). -/
inductive JsonObj where
  | nil
  | cons (k : String) (v : Json) (tl : JsonObj)

end

/-! ## JavaScript maps as association lists -/

/-- `Map.get` / object property read: first matching key (keys are unique
in a JS map, so first = only). -/
def getAssoc {α : Type} : List (String × α) → String → Option α
  | [], _ => none
  | (k', v) :: rest, k => if k' = k then some v else getAssoc rest k

/-- `Map.set` / object property write: overwrite in place, preserving the
original insertion position, else append. -/
def setAssoc {α : Type} : List (String × α) → String → α → List (String × α)
  | [], k, v => [(k, v)]
  | (k', v') :: rest, k, v =>
      if k' = k then (k, v) :: rest else (k', v') :: setAssoc rest k v

/-- Build a JS `Map` from a sequence of `set` calls in order. -/
def mkMap {α : Type} (l : List (String × α)) : List (String × α) :=
  l.foldl (fun m p => setAssoc m p.1 p.2) []

/-! ## Path encoding (from `applyTranslations` in `src/index.ts`) -/

/-- `p.replace(/\./g, DOT_ESCAPE)` with `DOT_ESCAPE = '\x01'`, written
over the character list. -/
def escapeSeg (s : String) : String :=
  ⟨s.data.map (fun c => if c = '.' then '\x01' else c)⟩

/-- `path.map(p => p.replace(/\./g, DOT_ESCAPE)).join(PATH_SEPARATOR)` with
`PATH_SEPARATOR = '\x00'`. -/
def encodePath (p : List String) : String :=
  String.intercalate "\x00" (p.map escapeSeg)

/-- Array index segment, written `[i]` as in `src/index.ts`. -/
def arraySeg (i : Nat) : String :=
  "[" ++ toString i ++ "]"

/-! ## Content fingerprint -/

/-- Modelled from the spec: `hashString` from the missing `helpers.ts` is a
"deterministic fingerprint of a string's content ... stable,
collision-resistant"; a collision-resistant digest is modelled as the
injective identity on contents. -/
def hashString (s : String) : String := s

/-! ## Flattening (modelled `flattenObjectWithPaths` from `helpers.ts`) -/

mutual

/-- Depth-first traversal emitting `(encodedPath, leafString)` pairs:
object keys in insertion order, array elements in index order; only string
leaves are emitted. -/
def flattenJ (pfx : List String) : Json → List (String × String)
  | .str s => [(encodePath pfx, s)]
  | .num _ => []
  | .bool _ => []
  | .null => []
  | .arr xs => flattenA pfx 0 xs
  | .obj fs => flattenO pfx fs

def flattenA (pfx : List String) (i : Nat) : JsonArr → List (String × String)
  | .nil => []
  | .cons x xs => flattenJ (pfx ++ [arraySeg i]) x ++ flattenA pfx (i + 1) xs

def flattenO (pfx : List String) : JsonObj → List (String × String)
  | .nil => []
  | .cons k v fs => flattenJ (pfx ++ [k]) v ++ flattenO pfx fs

end

/-- The raw depth-first list of `(encodedPath, value)` leaf entries of a
document; one entry per leaf-string occurrence. -/
def flattenEntries (d : Json) : List (String × String) :=
  flattenJ [] d

/-- Modelled from the spec: `flattenObjectWithPaths` from the missing
`helpers.ts` returns the JS `Map` from encoded paths to leaf strings,
built by setting each depth-first entry in order (later sets overwrite,
keeping the first insertion position), using the same path encoding that
`applyTranslations` in `src/index.ts` recomputes. -/
def flattenObjectWithPaths (d : Json) : List (String × String) :=
  mkMap (flattenEntries d)

/-! ## Reconstruction (`applyTranslations` in `src/index.ts`) -/

/-- The per-leaf replacement `applyTranslations` performs: look the encoded
path up in `sourcePathMap`; if present, look the source string's hash up in
`translations`; a present, truthy (non-empty) translation replaces the
leaf, anything else keeps the original value. -/
def replaceVal (srcMap tr : List (String × String)) (k s : String) : String :=
  match getAssoc srcMap k with
  | some src =>
      match getAssoc tr (hashString src) with
      | some t => if t = "" then s else t
      | none => s
  | none => s

mutual

/-- Structural in-place rendering of the rebuild, a proof device (not the
embedding of `applyTranslations`, which is defined below with the
source's root navigation): walk the document and overwrite each string
leaf according to `replaceVal`. -/
def applyJ (srcMap tr : List (String × String)) (pfx : List String) :
    Json → Json
  | .str s => .str (replaceVal srcMap tr (encodePath pfx) s)
  | .num n => .num n
  | .bool b => .bool b
  | .null => .null
  | .arr xs => .arr (applyA srcMap tr pfx 0 xs)
  | .obj fs => .obj (applyO srcMap tr pfx fs)

def applyA (srcMap tr : List (String × String)) (pfx : List String) (i : Nat) :
    JsonArr → JsonArr
  | .nil => .nil
  | .cons x xs =>
      .cons (applyJ srcMap tr (pfx ++ [arraySeg i]) x)
        (applyA srcMap tr pfx (i + 1) xs)

def applyO (srcMap tr : List (String × String)) (pfx : List String) :
    JsonObj → JsonObj
  | .nil => .nil
  | .cons k v fs =>
      .cons k (applyJ srcMap tr (pfx ++ [k]) v) (applyO srcMap tr pfx fs)

end

/-- The structural rendering of the rebuild: every leaf overwritten in
place at its own position.  This is what the write-back below produces
when every root navigation lands back on the leaf its path came from; it
is proved equal to the faithful `applyTranslations` on navigation-safe
documents (`applyTranslations_safe`) and is used to state per-leaf
properties positionally. -/
def applyStruct (srcMap tr : List (String × String)) (d : Json) : Json :=
  applyJ srcMap tr [] d

/-! ## Root navigation of the rebuild (`src/index.ts:455-469`, `864-879`)

After deciding that a leaf gets a translation, `applyTranslations` does
not write at the traversal position: it re-navigates from the document
root along the recorded segments, reinterpreting every segment of the
form `[...]` — array segments, but also literal object keys that happen
to be bracket-shaped — as `parseInt(p.slice(1, -1))`, and assigns into
the parent so reached.  The helpers below model that navigation over
`Json`: property access with the key the source uses (the raw segment,
or the canonical decimal rendering of the `parseInt` result, `"NaN"`
included), array index access for canonical-index keys, and `none` for
the paths on which the JavaScript run throws a `TypeError` (reading a
property of `undefined` or `null`, or assigning to a property of a
primitive — the sources are ES modules, hence strict mode). -/

/-- `p.startsWith('[') && p.endsWith(']')`. -/
def isBracketSeg (p : String) : Bool :=
  p.data.head? == some '[' && p.data.getLast? == some ']'

/-- `p.slice(1, -1)`: the segment without its first and last character. -/
def bracketInner (p : String) : String :=
  ⟨(p.data.drop 1).dropLast⟩

/-- Decimal value of a digit run (the accumulation `parseInt` performs). -/
def digitsVal (cs : List Char) : Nat :=
  cs.foldl (fun a c => a * 10 + (c.toNat - 48)) 0

/-- A hexadecimal digit. -/
def isHexDigit (c : Char) : Bool :=
  c.isDigit || ('a' ≤ c && c ≤ 'f') || ('A' ≤ c && c ≤ 'F')

/-- Value of a hexadecimal digit. -/
def hexDigitVal (c : Char) : Nat :=
  if c.isDigit then c.toNat - 48
  else if 'a' ≤ c && c ≤ 'f' then c.toNat - 87
  else c.toNat - 55

/-- Value of a hexadecimal digit run. -/
def hexVal (cs : List Char) : Nat :=
  cs.foldl (fun a c => a * 16 + hexDigitVal c) 0

/-- The digit phase of `parseInt` after sign handling: a `0x`/`0X` prefix
selects hexadecimal, otherwise the leading decimal digit run is taken; no
digits is `NaN` (`none`). -/
def parseIntTail (sign : Int) (cs : List Char) : Option Int :=
  match cs with
  | c1 :: c2 :: rest =>
      if c1 = '0' ∧ (c2 = 'x' ∨ c2 = 'X') then
        match rest.takeWhile isHexDigit with
        | [] => none
        | ds => some (sign * (hexVal ds : Int))
      else
        match cs.takeWhile Char.isDigit with
        | [] => none
        | ds => some (sign * (digitsVal ds : Int))
  | _ =>
      match cs.takeWhile Char.isDigit with
      | [] => none
      | ds => some (sign * (digitsVal ds : Int))

/-- `parseInt(s)` (radix 10 unless a hex prefix is present): skip leading
whitespace, read an optional sign, then digits; `none` is `NaN`.  (Values
large enough to lose integer precision or to be rendered in exponent
notation are not distinguished.) -/
def parseIntJS (s : String) : Option Int :=
  match s.data.dropWhile Char.isWhitespace with
  | [] => none
  | c :: rest =>
      if c = '-' then parseIntTail (-1) rest
      else if c = '+' then parseIntTail 1 rest
      else parseIntTail 1 (c :: rest)

/-- The canonical decimal rendering of an integer: the string JavaScript
uses as the property key for a number (`parent[n]` coerces `n`). -/
def intRepr : Int → String
  | Int.ofNat m => toString m
  | Int.negSucc m => "-" ++ toString (m + 1)

/-- The property key a path segment denotes during the rebuild's root
navigation: a bracket-shaped segment becomes the string form of its
`parseInt` value (`"NaN"` when the inner text has no digits), anything
else is used verbatim. -/
def navKey (p : String) : String :=
  if isBracketSeg p then
    match parseIntJS (bracketInner p) with
    | some n => intRepr n
    | none => "NaN"
  else p

/-- A canonical array index: `natCanon? k = some i` exactly when `k` is
the decimal rendering of `i`.  JavaScript array index access `xs[k]` is
property access with such a key; `"-1"`, `"NaN"`, `"00"` or `"length"`
are ordinary properties. -/
def natCanon? (k : String) : Option Nat :=
  if k.data ≠ [] ∧ k.data.all Char.isDigit then
    if toString (digitsVal k.data) = k then some (digitsVal k.data) else none
  else none

/-- Object property read (`parent[p]`). -/
def getO : JsonObj → String → Option Json
  | .nil, _ => none
  | .cons k' v tl, k => if k' = k then some v else getO tl k

/-- Object property write: overwrite in place, else append (JavaScript
property insertion order). -/
def setO : JsonObj → String → Json → JsonObj
  | .nil, k, v => .cons k v .nil
  | .cons k' v' tl, k, v =>
      if k' = k then .cons k v tl else .cons k' v' (setO tl k v)

/-- Array element read. -/
def getIdx : JsonArr → Nat → Option Json
  | .nil, _ => none
  | .cons x _, 0 => some x
  | .cons _ tl, i + 1 => getIdx tl i

/-- Array element write; writing past the end creates holes, which
`JSON.stringify` serialises as `null`. -/
def setIdx : JsonArr → Nat → Json → JsonArr
  | .nil, 0, v => .cons v .nil
  | .nil, i + 1, v => .cons .null (setIdx .nil i v)
  | .cons _ tl, 0, v => .cons v tl
  | .cons x tl, i + 1, v => .cons x (setIdx tl i v)

/-- The final assignment `parent[key] = value` of the write-back.  On an
object it is a property write; on an array it is an index write for a
canonical index key and otherwise a non-index property write, which
`JSON.stringify` ignores (an assignment to `"length"`, which would resize
the array or throw, is reachable only through a bracket-shaped object key
upstream and is not modelled).  Assigning to a property of a primitive or
of `null` throws in strict mode: `none`. -/
def setProp : Json → String → Json → Option Json
  | Json.obj fs, k, v => some (Json.obj (setO fs k v))
  | Json.arr xs, k, v =>
      match natCanon? k with
      | some i => some (Json.arr (setIdx xs i v))
      | none => some (Json.arr xs)
  | _, _, _ => none

/-- `let parent = translatedJson; for (const p of parentPath) parent =
parent[...]; parent[lastKey] = v`: navigate the parent path from the
root, reading each segment with its `navKey`, then assign.  A step that
reads `undefined` (a missing object key, an out-of-range or non-index
array key) is `none`: the run throws on the next read or on the final
assignment.  A step into a string, number, boolean or `null` is also
`none`: a continuation from there reads at most primitives or
`undefined`, so the final assignment throws in strict mode.  (Inherited
prototype properties such as `toString` are not modelled: a missing own
key reads as `undefined`.  Under correct navigation every key read is an
own key, so this is reachable only through a bracket-shaped object key
or a collision, and no theorem below traverses such a key.) -/
def updateAt (k : String) (v : Json) : List String → Json → Option Json
  | [], t => setProp t k v
  | p :: ps, t =>
      match t with
      | Json.obj fs =>
          match getO fs (navKey p) with
          | some c =>
              (updateAt k v ps c).map
                (fun c' => Json.obj (setO fs (navKey p) c'))
          | none => none
      | Json.arr xs =>
          match natCanon? (navKey p) with
          | some i =>
              match getIdx xs i with
              | some c =>
                  (updateAt k v ps c).map
                    (fun c' => Json.arr (setIdx xs i c'))
              | none => none
          | none => none
      | _ => none

/-- One recorded write of the rebuild: split the leaf's path into
`parentPath` and `lastKey` (`path.slice(0, -1)` / `path[path.length-1]`)
and assign through the root navigation.  An empty path (a string at the
document root) makes `lastKey` come out `undefined`, on which
`.startsWith` throws: `none`. -/
def writeUpd (t : Json) (u : List String × String) : Option Json :=
  match u.1.getLast? with
  | some lk => updateAt (navKey lk) (Json.str u.2) u.1.dropLast t
  | none => none

/-! The traversal of `applyTranslations` visits the tree and, at each
string leaf whose encoded path is in `sourcePathMap` and whose source
string has a truthy translation, performs one write-back through the root
navigation.  The decision at a leaf depends only on the leaf's path (the
value written is looked up by path and hash, never read from the tree),
so the traversal is modelled as collecting the triggered writes from the
original tree and then applying them in order.  This matches the in-place
JavaScript loop: a write either overwrites an existing position (whose
later visits decide identically, decisions being path-only) or adds a
property, which `for...in` does not enumerate when added to the object
currently being enumerated, and whose path lies outside `sourcePathMap`
for every document a theorem below quantifies over.  (`for...in`
enumerates integer-like keys first; the model traverses insertion order.
The order of writes is observable only when two writes target the same
position, which requires a bracket-shaped object key or a path collision;
the concrete documents below list integer-like keys first, making the two
orders agree.) -/

mutual

/-- Writes triggered below a node, with paths relative to the node the
write-back starts from (`pfx` is the absolute prefix used for the
`sourcePathMap` lookup; at the root call the two coincide). -/
def collectJ (srcMap tr : List (String × String)) (pfx : List String) :
    Json → List (List String × String)
  | .str _ =>
      match getAssoc srcMap (encodePath pfx) with
      | some src =>
          match getAssoc tr (hashString src) with
          | some t => if t = "" then [] else [([], t)]
          | none => []
      | none => []
  | .num _ => []
  | .bool _ => []
  | .null => []
  | .arr xs => collectA srcMap tr pfx 0 xs
  | .obj fs => collectO srcMap tr pfx fs

def collectA (srcMap tr : List (String × String)) (pfx : List String)
    (i : Nat) : JsonArr → List (List String × String)
  | .nil => []
  | .cons x xs =>
      (collectJ srcMap tr (pfx ++ [arraySeg i]) x).map
          (fun u => (arraySeg i :: u.1, u.2)) ++
        collectA srcMap tr pfx (i + 1) xs

def collectO (srcMap tr : List (String × String)) (pfx : List String) :
    JsonObj → List (List String × String)
  | .nil => []
  | .cons k v fs =>
      (collectJ srcMap tr (pfx ++ [k]) v).map (fun u => (k :: u.1, u.2)) ++
        collectO srcMap tr pfx fs

end

/-- `applyTranslations(translatedJson)` from `src/index.ts:429-475` (the
per-file copy at lines 864-879 is identical): traverse the document and,
for each triggered leaf, assign its translation through the root
navigation; `none` models the `TypeError` that aborts the run when a
navigation step or the final assignment throws. -/
def applyTranslations (srcMap tr : List (String × String)) (d : Json) :
    Option Json :=
  (collectJ srcMap tr [] d).foldlM writeUpd d

/-- `fs` has an entry for `k`. -/
def hasKeyO : JsonObj → String → Bool
  | .nil, _ => false
  | .cons k' _ tl, k => k' == k || hasKeyO tl k

mutual

/-- Navigation safety below a node: no object key is bracket-shaped (such
a key is reinterpreted by `parseInt` during the write-back) and no object
repeats a key (a JavaScript object cannot).  Below such a node every
write-back navigates to exactly the leaf its path came from. -/
def safeJ : Json → Bool
  | .str _ => true
  | .num _ => true
  | .bool _ => true
  | .null => true
  | .arr xs => safeA xs
  | .obj fs => safeO fs

def safeA : JsonArr → Bool
  | .nil => true
  | .cons x xs => safeJ x && safeA xs

def safeO : JsonObj → Bool
  | .nil => true
  | .cons k v fs =>
      !(isBracketSeg k) && !(hasKeyO fs k) && safeJ v && safeO fs

end

/-- A navigation-safe document: a non-leaf root (the pipeline's documents
are parsed JSON objects) all of whose object keys are unique and not
bracket-shaped. -/
def SafeDoc : Json → Bool
  | .str _ => false
  | .num _ => true
  | .bool _ => true
  | .null => true
  | .arr xs => safeA xs
  | .obj fs => safeO fs

/-- Length of an array node. -/
def lenA : JsonArr → Nat
  | .nil => 0
  | .cons _ tl => lenA tl + 1

/-- Concatenation of array nodes. -/
def appendA : JsonArr → JsonArr → JsonArr
  | .nil, ys => ys
  | .cons x tl, ys => .cons x (appendA tl ys)

/-- Concatenation of object nodes. -/
def appendO : JsonObj → JsonObj → JsonObj
  | .nil, gs => gs
  | .cons k v tl, gs => .cons k v (appendO tl gs)

/-! ## Backend contract validation (`src/translators/base.ts`) -/

/-- `t.trim() === ''`: a string is blank exactly when all its characters
are whitespace (this also covers the falsy empty string). -/
def isBlank (t : String) : Bool :=
  t.data.all (fun c => c.isWhitespace)

/-- `validateResponse` from `base.ts`: the providers throw on a result list
of the wrong length or containing an empty / whitespace-only translation
(the identical-to-input case is only a console warning). Modelled as a
boolean: `false` means the provider throws. -/
def validateResponse (strings translations : List String) : Bool :=
  translations.length == strings.length &&
    translations.all (fun t => ¬(isBlank t = true))

/-- `translator.translate` as seen by the pipeline: the backend oracle may
itself fail (`none`), and a response failing `validateResponse` is thrown
by the provider, i.e. also `none`. -/
def callTranslate (oracle : List String → Option (List String))
    (strings : List String) : Option (List String) :=
  match oracle strings with
  | none => none
  | some ts => if validateResponse strings ts then some ts else none

/-- `translateBatch` from `src/index.ts` (format preservation disabled): on
any thrown error return an empty map; otherwise pair each input with its
same-index translation, skipping falsy (empty) values. -/
def translateBatch (oracle : List String → Option (List String))
    (strings : List String) : List (String × String) :=
  match callTranslate oracle strings with
  | none => []
  | some ts => (strings.zip ts).filter (fun p => ¬(p.2 = ""))

/-! ## Batch partitioning -/

/-- `MAX_BATCH_SIZE` from `src/index.ts`. -/
def MAX_BATCH_SIZE : Nat := 100

/-- `Math.ceil(a / b)` on naturals. -/
def ceilDiv (a b : Nat) : Nat := (a + b - 1) / b

/-- `Math.ceil(totalStrings / MAX_BATCH_SIZE)` (both paths). -/
def numBatches (total : Nat) : Nat := ceilDiv total MAX_BATCH_SIZE

/-- `Math.ceil(totalStrings / numBatches)`, the single-file path's
dynamically sized batch target. -/
def dynamicBatchSize (total : Nat) : Nat := ceilDiv total (numBatches total)

/-- `for (let i = 0; i < total; i += size) slice(i, i + size)`, with fuel
(the slicing loops of both processing paths). -/
def chunkAux {α : Type} : Nat → Nat → List α → List (List α)
  | 0, _, _ => []
  | _, _, [] => []
  | fuel + 1, size, l => l.take size :: chunkAux fuel size (l.drop size)

/-- Slice a list into consecutive chunks of at most `size` elements. -/
def chunkList {α : Type} (size : Nat) (l : List α) : List (List α) :=
  chunkAux l.length size l

/-- The single-file path's batches: chunks of `dynamicBatchSize`. -/
def singleBatches (l : List String) : List (List String) :=
  chunkList (dynamicBatchSize l.length) l

/-- The multi-file path's batches: chunks of `MAX_BATCH_SIZE`. -/
def multiBatches (l : List String) : List (List String) :=
  chunkList MAX_BATCH_SIZE l

/-! ## Deduplication (JS `Set` insertion order) -/

def dedupAux : List String → List String → List String
  | [], _ => []
  | x :: xs, seen =>
      if x ∈ seen then dedupAux xs seen else x :: dedupAux xs (x :: seen)

/-- `new Set(list)` iterated in insertion order: keep first occurrences. -/
def dedupFirst (l : List String) : List String := dedupAux l []

/-! ## The translation cache -/

/-- `{ [hash]: translated }` for one language. -/
abbrev LangCache : Type := List (String × String)

/-- `{ [lang]: LangCache }` for one source file. -/
abbrev FileCache : Type := List (String × LangCache)

/-- `TranslationCache = { [sourceFilePath]: FileCache }`. -/
abbrev Cache : Type := List (String × FileCache)

/-- `translationCache[file]?.[lang] || {}`. -/
def langCacheOf (c : Cache) (file lang : String) : LangCache :=
  (getAssoc ((getAssoc c file).getD []) lang).getD []

/-- `translationCache[file]?.[lang]?.[hash]`. -/
def lookup3 (c : Cache) (file lang h : String) : Option String :=
  getAssoc (langCacheOf c file lang) h

/-- `if (!cache[file]) cache[file] = {}; if (!cache[file][lang]) ... ;
cache[file][lang][hash] = v`. -/
def record3 (c : Cache) (file lang h v : String) : Cache :=
  let fc := (getAssoc c file).getD []
  let lc := (getAssoc fc lang).getD []
  setAssoc c file (setAssoc fc lang (setAssoc lc h v))

/-- Record a list of `(hash, translation)` pairs in order. -/
def recordAll (c : Cache) (file lang : String)
    (prs : List (String × String)) : Cache :=
  prs.foldl (fun c p => record3 c file lang p.1 p.2) c

/-- Step 4 of `processSingleFile`: delete every entry of
`cache[file][lang]` whose hash is not in the current hash set; returns the
new cache and the pruned count. -/
def pruneCache (c : Cache) (file lang : String) (current : List String) :
    Cache × Nat :=
  match getAssoc c file with
  | none => (c, 0)
  | some fc =>
      match getAssoc fc lang with
      | none => (c, 0)
      | some lc =>
          let kept := lc.filter (fun p => p.1 ∈ current)
          (setAssoc c file (setAssoc fc lang kept), lc.length - kept.length)

/-- `loadCache` from `src/index.ts`: a failed read (`none`) or a failed
`JSON.parse` yields the empty cache instead of aborting. -/
def loadCache (readResult : Option String)
    (parse : String → Option Cache) : Cache :=
  match readResult with
  | none => []
  | some data =>
      match parse data with
      | none => []
      | some c => c

/-! ## Single-file processing (`processSingleFile` in `src/index.ts`) -/

/-- Observable outcome of one `processSingleFile` run: the outbound batch
requests, the merged hash→translation map, the rebuilt document (`none`
in dry-run mode, and `none` when the rebuild's root navigation throws and
aborts the run), the persisted cache state and whether `saveCache` ran
(the cache is saved before the rebuild in the source, so a rebuild abort
does not affect it). -/
structure SingleRun where
  requests : List (List String)
  translations : List (String × String)
  output : Option Json
  cacheAfter : Cache
  cacheSaved : Bool

/-- Step 2 of `processSingleFile`: walk `allSourceStrings` in order; a
truthy `langCache[hash]` becomes a translation entry, anything else a
cache miss. -/
def cacheSplit (langCache : LangCache) :
    List String → List (String × String) × List String
  | [] => ([], [])
  | s :: rest =>
      let r := cacheSplit langCache rest
      match getAssoc langCache (hashString s) with
      | some t =>
          if t = "" then (r.1, s :: r.2) else ((hashString s, t) :: r.1, r.2)
      | none => (r.1, s :: r.2)

/-- `allSourceStrings = new Set(sourcePathMap.values())` in insertion
order. -/
def allStringsOf (doc : Json) : List String :=
  dedupFirst ((flattenObjectWithPaths doc).map Prod.snd)

/-- The hit/miss split of the single-file path (all strings are misses
when the cache is disabled). -/
def singleSplit (doc : Json) (filePath lang : String) (useCache : Bool)
    (cacheLoaded : Cache) : List (String × String) × List String :=
  if useCache then
    cacheSplit (langCacheOf cacheLoaded filePath lang) (allStringsOf doc)
  else ([], allStringsOf doc)

/-- Merge of all batch outcomes: each `(original, translated)` pair is
fingerprinted and collected in batch order. -/
def newPairsOf (oracle : List String → Option (List String))
    (batches : List (List String)) : List (String × String) :=
  (batches.map (translateBatch oracle)).flatten.map
    (fun p => (hashString p.1, p.2))

/-- `processSingleFile`: flatten, split against the cache, translate the
misses in dynamically sized batches, record and prune the cache, save it
when modified, and rebuild the document.  In dry-run mode the function
returns after reporting, performing none of these effects. -/
def processSingleFile (doc : Json) (filePath lang : String)
    (useCache dryRun : Bool) (cacheLoaded : Cache)
    (oracle : List String → Option (List String)) : SingleRun :=
  if dryRun then
    { requests := [], translations := [], output := none,
      cacheAfter := cacheLoaded, cacheSaved := false }
  else
    let split := singleSplit doc filePath lang useCache cacheLoaded
    let batches := singleBatches split.2
    let newPairs := newPairsOf oracle batches
    let translations := mkMap (split.1 ++ newPairs)
    let recorded :=
      if useCache then recordAll cacheLoaded filePath lang newPairs
      else cacheLoaded
    let currentHashes :=
      ((flattenObjectWithPaths doc).map Prod.snd).map hashString
    let prunedP :=
      if useCache then pruneCache recorded filePath lang currentHashes
      else (recorded, 0)
    let saved := useCache && (!newPairs.isEmpty || !(prunedP.2 == 0))
    { requests := batches,
      translations := translations,
      output := applyTranslations (flattenObjectWithPaths doc)
        translations doc,
      cacheAfter := if saved then prunedP.1 else cacheLoaded,
      cacheSaved := saved }

/-! ## Multi-file processing (`processMultipleFiles` in `src/index.ts`) -/

/-- Observable outcome of one `processMultipleFiles` run; `outputs` lists
the files actually rebuilt and written — a rebuild whose root navigation
throws aborts the output loop, leaving the remaining files unwritten. -/
structure MultiRun where
  requests : List (List String)
  globalTranslations : List (String × String)
  outputs : List (String × Json)
  cacheAfter : Cache
  cacheSaved : Bool

/-- `globalStringMap.get(str).add(filePath)` (with the `Set` deduplicating
files); a new string is appended, an existing one updated in place. -/
def addOccur : List (String × List String) → String → String →
    List (String × List String)
  | [], s, f => [(s, [f])]
  | (s', fs) :: rest, s, f =>
      if s' = s then (s', if f ∈ fs then fs else fs ++ [f]) :: rest
      else (s', fs) :: addOccur rest s f

/-- Step 2 of `processMultipleFiles`: the insertion-ordered map from each
unique leaf string to the set of files containing it. -/
def globalStringMap (files : List (String × Json)) :
    List (String × List String) :=
  files.foldl
    (fun m fd =>
      ((flattenObjectWithPaths fd.2).map Prod.snd).foldl
        (fun m s => addOccur m s fd.1) m)
    []

/-- Step 3's inner loop: scan the string's files in order for a truthy
cached translation. -/
def findCachedIn (c : Cache) (lang h : String) : List String → Option String
  | [] => none
  | f :: fs =>
      match lookup3 c f lang h with
      | some t => if t = "" then findCachedIn c lang h fs else some t
      | none => findCachedIn c lang h fs

/-- Step 3 of `processMultipleFiles`: split the unique strings into cached
translations and strings to translate. -/
def multiSplit (c : Cache) (lang : String) :
    List (String × List String) → List (String × String) × List String
  | [] => ([], [])
  | (s, fs) :: rest =>
      let r := multiSplit c lang rest
      match findCachedIn c lang (hashString s) fs with
      | some t => ((hashString s, t) :: r.1, r.2)
      | none => (r.1, s :: r.2)

/-- The hit/miss split of the multi-file path (all unique strings are
misses when the cache is disabled). -/
def multiSplitRun (files : List (String × Json)) (lang : String)
    (useCache : Bool) (cacheLoaded : Cache) :
    List (String × String) × List String :=
  if useCache then multiSplit cacheLoaded lang (globalStringMap files)
  else ([], (globalStringMap files).map Prod.fst)

/-- Step 6 of `processMultipleFiles`: rebuild the documents in order; a
rebuild that throws aborts the loop, leaving the remaining files
unwritten. -/
def rebuildOutputs (gtr : List (String × String)) :
    List (String × Json) → List (String × Json)
  | [] => []
  | fd :: rest =>
      match applyTranslations (flattenObjectWithPaths fd.2) gtr fd.2 with
      | some o => (fd.1, o) :: rebuildOutputs gtr rest
      | none => []

/-- Step 5 of `processMultipleFiles`: record every translated string under
every file containing it. -/
def recordMulti (c : Cache) (lang : String)
    (gsm : List (String × List String)) (gtr : List (String × String)) :
    Cache :=
  gsm.foldl
    (fun c p =>
      match getAssoc gtr (hashString p.1) with
      | some t => p.2.foldl (fun c f => record3 c f lang (hashString p.1) t) c
      | none => c)
    c

/-- `processMultipleFiles`: collect unique strings across all files, split
against the cache (a hit under any file containing the string counts),
translate the misses in `MAX_BATCH_SIZE` chunks, record results under
every containing file, save if anything needed translation, and rebuild
every document.  Dry-run mode returns after reporting. -/
def processMultipleFiles (files : List (String × Json)) (lang : String)
    (useCache dryRun : Bool) (cacheLoaded : Cache)
    (oracle : List String → Option (List String)) : MultiRun :=
  if dryRun then
    { requests := [], globalTranslations := [], outputs := [],
      cacheAfter := cacheLoaded, cacheSaved := false }
  else
    let split := multiSplitRun files lang useCache cacheLoaded
    let batches := multiBatches split.2
    let newPairs := newPairsOf oracle batches
    let globalTranslations := mkMap (split.1 ++ newPairs)
    let saved := useCache && !split.2.isEmpty
    { requests := batches,
      globalTranslations := globalTranslations,
      outputs := rebuildOutputs globalTranslations files,
      cacheAfter :=
        if saved then
          recordMulti cacheLoaded lang (globalStringMap files)
            globalTranslations
        else cacheLoaded,
      cacheSaved := saved }

/-! ## Cache persistence (`saveCache` in `src/index.ts`) -/

/-- File-system effects, at the granularity `saveCache` uses; a cache
write carries the cache value it serialises. -/
inductive FsOp where
  | access (p : String)
  | mkdir (p : String)
  | writeCache (p : String) (c : Cache)
  | rename (src dst : String)
deriving DecidableEq

/-- `ensureCacheDirectory`: `fs.access(dir)`, and `fs.mkdir` only when that
throws. -/
def ensureCacheDirectoryTrace (dirExists : Bool) (dir : String) :
    List FsOp :=
  if dirExists then [.access dir] else [.access dir, .mkdir dir]

/-- `saveCache`: ensure the directory, then one `fs.writeFile` of the
serialised cache directly to `cacheFilePath`. -/
def saveCacheTrace (dirExists : Bool) (dir : String) (cache : Cache)
    (cacheFilePath : String) : List FsOp :=
  ensureCacheDirectoryTrace dirExists dir ++ [.writeCache cacheFilePath cache]

/-- Modelled from the spec: the "write to a temporary location then
atomically replace" persistence pattern the spec requires of `persist()` —
some temporary path distinct from the target is written and then renamed
onto the target. -/
def isAtomicPersist (trace : List FsOp) (target : String) : Prop :=
  ∃ tmp c, tmp ≠ target ∧ FsOp.writeCache tmp c ∈ trace ∧
    FsOp.rename tmp target ∈ trace

/-! ## FormatGuard (modelled `preserveFormats` / `restoreFormats`) -/

/-- A character of a guarded string: ordinary text, or a sentinel token
(the spec's "short, backend-stable sentinel not realistically produced by
natural-language translation", modelled as an atomic symbol). -/
inductive Sym where
  | ch (c : Char)
  | sentinel (i : Nat)
deriving DecidableEq

/-- Modelled from the spec: locate the closing delimiter of a templated
variable — the span up to the first closing brace, and the remainder after
it; `none` when the closing brace is missing. -/
def braceSplit (rest : List Char) : Option (List Char × List Char) :=
  match rest.drop (rest.takeWhile (fun c2 => ¬(c2 = '}'))).length with
  | [] => none
  | _ :: rest2 => some (rest.takeWhile (fun c2 => ¬(c2 = '}')), rest2)

/-- Modelled from the spec: the scanning pass of `preserveFormats` from the
missing `helpers.ts` — pattern classes are matched in fixed priority order
and each match is replaced by the next sentinel, recording the original
span.  The templated-variable class (brace-delimited spans) represents the
pattern classes; `fuel` bounds the scan by the input length. -/
def protectAux : Nat → Nat → List Char → List Sym × List (List Char)
  | 0, _, l => (l.map Sym.ch, [])
  | _ + 1, _, [] => ([], [])
  | fuel + 1, n, c :: rest =>
      if c = '{' then
        match braceSplit rest with
        | some (inner, rest2) =>
            (Sym.sentinel n :: (protectAux fuel (n + 1) rest2).1,
              ('{' :: (inner ++ ['}'])) :: (protectAux fuel (n + 1) rest2).2)
        | none =>
            (Sym.ch c :: (protectAux fuel n rest).1,
              (protectAux fuel n rest).2)
      else
        (Sym.ch c :: (protectAux fuel n rest).1, (protectAux fuel n rest).2)

/-- Modelled from the spec: `preserveFormats(s)` returns the placeholder
string and the recovery token (the ordered original spans). -/
def preserveFormats (s : List Char) : List Sym × List (List Char) :=
  protectAux s.length 0 s

/-- Modelled from the spec: `restoreFormats` substitutes each sentinel back
with its original exact substring, in order; a sentinel with no recorded
span inserts nothing rather than failing. -/
def restoreFormats (spans : List (List Char)) : List Sym → List Char
  | [] => []
  | Sym.ch c :: rest => c :: restoreFormats spans rest
  | Sym.sentinel i :: rest => spans.getD i [] ++ restoreFormats spans rest

/-! ## Derived notions used by the verification -/

/-- The value of the last `set` call for a key. -/
def lastAssoc {α : Type} (l : List (String × α)) (k : String) : Option α :=
  getAssoc l.reverse k

mutual

/-- The structure of a document with all string leaves blanked. -/
def shapeJ : Json → Json
  | .str _ => .str ""
  | .num n => .num n
  | .bool b => .bool b
  | .null => .null
  | .arr xs => .arr (shapeA xs)
  | .obj fs => .obj (shapeO fs)

def shapeA : JsonArr → JsonArr
  | .nil => .nil
  | .cons x xs => .cons (shapeJ x) (shapeA xs)

def shapeO : JsonObj → JsonObj
  | .nil => .nil
  | .cons k v fs => .cons k (shapeJ v) (shapeO fs)

end

/-- A document is collision-free when no two of its leaves share the same
encoded path (e.g. no object key contains the separator byte, and no
dotted key collides with an escaped one). -/
def NoCollide (d : Json) : Prop :=
  ((flattenEntries d).map Prod.fst).Nodup

instance (d : Json) : Decidable (NoCollide d) := by
  unfold NoCollide
  infer_instance

/-- A list of 250 distinct strings, the spec's concrete batching
scenario. -/
def demo250 : List String :=
  (List.range 250).map toString

/-- A demonstration backend oracle that translates every string by
appending an exclamation mark. -/
def demoOracle : List String → Option (List String) :=
  fun l => some (l.map (fun s => s ++ "!"))

/-- A backend oracle that always fails. -/
def failOracle : List String → Option (List String) :=
  fun _ => none

/-- `JSON.parse` model that always fails. -/
def failParse : String → Option Cache :=
  fun _ => none

/-- A backend oracle that violates the length contract: it drops the first
string and translates the rest, returning one result too few. -/
def shortOracle : List String → Option (List String) :=
  fun l => some ((l.drop 1).map (fun s => s ++ "!"))

/-- The spec's concrete document: `{"a":"Hello","b":{"c":"Hello"}}`. -/
def demoDoc : Json :=
  .obj (.cons "a" (.str "Hello")
    (.cons "b" (.obj (.cons "c" (.str "Hello") .nil)) .nil))

/-- A second document sharing the leaf `"Hello"`. -/
def demoDoc2 : Json :=
  .obj (.cons "x" (.str "Hello") .nil)

/-- A third document with a distinct leaf. -/
def demoDoc3 : Json :=
  .obj (.cons "y" (.str "World") .nil)

/-- A document whose keys `"a.b"` and `"a\x01b"` encode to the same
flattened path, with a third leaf repeating the value `"S"`. -/
def collideDoc : Json :=
  .obj (.cons "a.b" (.str "S")
    (.cons "a\x01b" (.str "T")
      (.cons "q" (.str "S") .nil)))

/-- A collision-free document with a bracket-shaped object key, repeating
the value `"S"`: `{"[0]": "S", "q": "S"}`.  The rebuild's write-back for
the leaf at `"[0]"` goes through `parseInt("0")` and lands on the fresh
key `"0"` instead. -/
def bracketDoc : Json :=
  .obj (.cons "[0]" (.str "S") (.cons "q" (.str "S") .nil))

/-- `{"[0]": "hello"}`: one leaf under a bracket-shaped object key. -/
def bracketLeafDoc : Json :=
  .obj (.cons "[0]" (.str "hello") .nil)

/-- `{"a": {"[0]": {"b": "x"}}}`: the leaf's parent path contains a
bracket-shaped object key, so the write-back navigates `parent[0]` on an
object without a key `"0"`, reads `undefined`, and the run throws. -/
def bracketNest : Json :=
  .obj (.cons "a"
    (.obj (.cons "[0]" (.obj (.cons "b" (.str "x") .nil)) .nil)) .nil)

/-- An array node of string leaves. -/
def arrOfList : List String → JsonArr
  | [] => .nil
  | s :: rest => .cons (.str s) (arrOfList rest)

/-- 99 distinct filler strings. -/
def fillerList : List String :=
  (List.range 99).map (fun i => "s" ++ toString i)

/-- `{"0": "A", "z": ["s0", ..., "s98"], "[0]": "B"}`: 101 distinct leaf
strings, so the single-file path makes two batches (51 and 50); `"A"`
lands in the first batch and `"B"` in the second, and the write-back for
`"B"` (key `"[0]"`, reinterpreted as index `0`, property key `"0"`)
clobbers the leaf holding `"A"`.  (The integer-like key `"0"` is listed
first, matching `for...in` enumeration order.) -/
def clobberDoc : Json :=
  .obj (.cons "0" (.str "A")
    (.cons "z" (.arr (arrOfList fillerList))
      (.cons "[0]" (.str "B") .nil)))

/-- A backend oracle that violates the length contract (empty result
list) exactly on batches containing `"A"`, and translates everything else
by appending an exclamation mark. -/
def cexOracle : List String → Option (List String) :=
  fun l => if "A" ∈ l then some [] else some (l.map (fun s => s ++ "!"))

/-- The first batch of the single-file run over `clobberDoc`: `"A"`
followed by the first 50 filler strings. -/
def failedBatch : List String :=
  "A" :: (List.range 50).map (fun i => "s" ++ toString i)

/-! ## Association-list lemmas -/

theorem getAssoc_setAssoc {α : Type} (m : List (String × α)) (k k' : String)
    (v : α) :
    getAssoc (setAssoc m k v) k' =
      if k = k' then some v else getAssoc m k' := by
  induction m with
  | nil => simp [setAssoc, getAssoc]
  | cons p rest ih =>
      by_cases h : p.1 = k
      · simp only [setAssoc, getAssoc, h]
        by_cases h' : k = k' <;> simp [h, h', getAssoc]
      · simp only [setAssoc, getAssoc, h, if_neg h]
        by_cases h' : p.1 = k'
        · have : ¬(k = k') := fun hk => h (hk ▸ h')
          simp [h', this, getAssoc]
        · simp [h', ih, getAssoc]

theorem getAssoc_append {α : Type} (a b : List (String × α)) (k : String) :
    getAssoc (a ++ b) k =
      match getAssoc a k with
      | some v => some v
      | none => getAssoc b k := by
  induction a with
  | nil => simp [getAssoc]
  | cons p rest ih =>
      by_cases h : p.1 = k <;> simp [getAssoc, h, ih]

theorem getAssoc_foldl_set {α : Type} (l : List (String × α))
    (m : List (String × α)) (k : String) :
    getAssoc (l.foldl (fun m p => setAssoc m p.1 p.2) m) k =
      match lastAssoc l k with
      | some v => some v
      | none => getAssoc m k := by
  induction l generalizing m with
  | nil => simp [lastAssoc, getAssoc]
  | cons p rest ih =>
      simp only [List.foldl_cons, ih, lastAssoc, List.reverse_cons,
        getAssoc_append, getAssoc_setAssoc]
      rcases getAssoc rest.reverse k with _ | v
      · by_cases h : p.1 = k <;> simp [getAssoc, h]
      · simp

theorem getAssoc_mkMap {α : Type} (l : List (String × α)) (k : String) :
    getAssoc (mkMap l) k = lastAssoc l k := by
  rw [mkMap, getAssoc_foldl_set]
  rcases lastAssoc l k with _ | v <;> simp [getAssoc]

theorem getAssoc_eq_none_iff {α : Type} (l : List (String × α)) (k : String) :
    getAssoc l k = none ↔ k ∉ l.map Prod.fst := by
  induction l with
  | nil => simp [getAssoc]
  | cons p rest ih =>
      by_cases hne : p.1 = k
      · simp [getAssoc, hne]
      · simp only [getAssoc, if_neg hne, ih, List.map_cons, List.mem_cons]
        constructor
        · intro h hk
          rcases hk with hk | hk
          · exact hne hk.symm
          · exact h hk
        · intro h hk
          exact h (Or.inr hk)

theorem getAssoc_eq_none {α : Type} (l : List (String × α)) (k : String)
    (h : k ∉ l.map Prod.fst) : getAssoc l k = none :=
  (getAssoc_eq_none_iff l k).mpr h

theorem getAssoc_of_mem_nodup {α : Type} (l : List (String × α))
    (k : String) (v : α) (hn : (l.map Prod.fst).Nodup) (hm : (k, v) ∈ l) :
    getAssoc l k = some v := by
  induction l with
  | nil => simp at hm
  | cons p rest ih =>
      simp only [List.map_cons, List.nodup_cons] at hn
      rcases List.mem_cons.mp hm with h | h
      · simp [getAssoc, h.symm]
      · have hne : ¬(p.1 = k) := by
          intro he
          exact hn.1 (he ▸ (List.mem_map.mpr ⟨(k, v), h, rfl⟩))
        simp [getAssoc, hne, ih hn.2 h]

theorem mem_of_getAssoc {α : Type} (l : List (String × α)) (k : String)
    (v : α) (he : getAssoc l k = some v) : (k, v) ∈ l := by
  induction l with
  | nil => simp [getAssoc] at he
  | cons p rest ih =>
      simp only [getAssoc] at he
      by_cases hp : p.1 = k
      · rw [if_pos hp] at he
        cases he
        exact List.mem_cons.mpr (Or.inl (by rw [← hp]))
      · exact List.mem_cons_of_mem _ (ih (by simpa [hp] using he))

theorem getAssoc_mem_keys {α : Type} (l : List (String × α)) (k : String)
    (v : α) (he : getAssoc l k = some v) : k ∈ l.map Prod.fst :=
  List.mem_map.mpr ⟨(k, v), mem_of_getAssoc l k v he, rfl⟩

theorem lastAssoc_of_nodup {α : Type} (l : List (String × α)) (k : String)
    (hn : (l.map Prod.fst).Nodup) : lastAssoc l k = getAssoc l k := by
  rcases he : getAssoc l k with _ | v
  · rw [lastAssoc, getAssoc_eq_none]
    rw [List.map_reverse, List.mem_reverse]
    exact (getAssoc_eq_none_iff l k).mp he
  · exact getAssoc_of_mem_nodup l.reverse k v
      (by rw [List.map_reverse]; exact List.nodup_reverse.mpr hn)
      (List.mem_reverse.mpr (mem_of_getAssoc l k v he))

/-! ## Deduplication lemmas -/

theorem mem_dedupAux (l seen : List String) (x : String) :
    x ∈ dedupAux l seen ↔ x ∈ l ∧ x ∉ seen := by
  induction l generalizing seen with
  | nil => simp [dedupAux]
  | cons y ys ih =>
      by_cases hy : y ∈ seen
      · simp only [dedupAux, if_pos hy, ih, List.mem_cons]
        by_cases hx : x = y
        · simp [hx, hy]
        · simp [hx]
      · simp only [dedupAux, if_neg hy, ih, List.mem_cons]
        by_cases hx : x = y
        · simp [hx, hy]
        · simp [hx]

theorem nodup_dedupAux (l seen : List String) : (dedupAux l seen).Nodup := by
  induction l generalizing seen with
  | nil => simp [dedupAux]
  | cons y ys ih =>
      by_cases hy : y ∈ seen
      · simpa [dedupAux, if_pos hy] using ih seen
      · simp only [dedupAux, if_neg hy, List.nodup_cons]
        exact ⟨fun hc => ((mem_dedupAux ys (y :: seen) y).mp hc).2
          (List.mem_cons_self y seen), ih (y :: seen)⟩

theorem nodup_dedupFirst (l : List String) : (dedupFirst l).Nodup :=
  nodup_dedupAux l []

theorem mem_dedupFirst (l : List String) (x : String) :
    x ∈ dedupFirst l ↔ x ∈ l := by
  simp [dedupFirst, mem_dedupAux]

/-! ## Ceiling-division lemmas -/

theorem ceilDiv_le_iff (a b c : Nat) (hb : 0 < b) :
    ceilDiv a b ≤ c ↔ a ≤ b * c := by
  rw [ceilDiv, Nat.div_le_iff_le_mul_add_pred hb]
  omega

theorem le_mul_ceilDiv (a b : Nat) (hb : 0 < b) : a ≤ b * ceilDiv a b :=
  (ceilDiv_le_iff a b (ceilDiv a b) hb).mp le_rfl

theorem ceilDiv_pos (a b : Nat) (ha : 0 < a) (hb : 0 < b) :
    0 < ceilDiv a b := by
  rcases Nat.eq_zero_or_pos (ceilDiv a b) with h | h
  · have hle := le_mul_ceilDiv a b hb
    rw [h, Nat.mul_zero] at hle
    omega
  · exact h

theorem ceilDiv_le_ceilDiv (a b c : Nat) (hb : 0 < b) (hbc : b ≤ c) :
    ceilDiv a c ≤ ceilDiv a b := by
  have hc : 0 < c := lt_of_lt_of_le hb hbc
  rw [ceilDiv_le_iff a c _ hc]
  calc a ≤ b * ceilDiv a b := le_mul_ceilDiv a b hb
    _ ≤ c * ceilDiv a b := Nat.mul_le_mul_right _ hbc

theorem ceilDiv_ceilDiv_le (a k : Nat) (ha : 0 < a) (hk : 0 < k) :
    ceilDiv a (ceilDiv a k) ≤ k := by
  have hp : 0 < ceilDiv a k := ceilDiv_pos a k ha hk
  rw [ceilDiv_le_iff a _ k hp]
  calc a ≤ k * ceilDiv a k := le_mul_ceilDiv a k hk
    _ = ceilDiv a k * k := Nat.mul_comm _ _

/-- `⌈a / ⌈a / ⌈a / m⌉⌉⌉ = ⌈a / m⌉`: the single-file path creates exactly
`numBatches` chunks. -/
theorem ceilDiv_triple (a m : Nat) (ha : 0 < a) (hm : 0 < m) :
    ceilDiv a (ceilDiv a (ceilDiv a m)) = ceilDiv a m := by
  have h1 : 0 < ceilDiv a m := ceilDiv_pos a m ha hm
  have h2 : 0 < ceilDiv a (ceilDiv a m) := ceilDiv_pos a _ ha h1
  apply le_antisymm
  · exact ceilDiv_ceilDiv_le a (ceilDiv a m) ha h1
  · exact ceilDiv_le_ceilDiv a _ _ h2 (ceilDiv_ceilDiv_le a m ha hm)

/-! ## Chunking lemmas -/

theorem chunkAux_flatten {α : Type} (fuel size : Nat) (l : List α)
    (hs : 0 < size) (hf : l.length ≤ fuel) :
    (chunkAux fuel size l).flatten = l := by
  induction fuel generalizing l with
  | zero =>
      cases l with
      | nil => rfl
      | cons x xs => simp at hf
  | succ f ih =>
      cases l with
      | nil => rfl
      | cons x xs =>
          simp only [chunkAux, List.flatten_cons]
          rw [ih ((x :: xs).drop size)
            (by
              simp only [List.length_drop, List.length_cons]
              simp only [List.length_cons] at hf
              omega)]
          exact List.take_append_drop size (x :: xs)

theorem chunkAux_length_le {α : Type} (fuel size : Nat) (l : List α)
    (b : List α) (hb : b ∈ chunkAux fuel size l) : b.length ≤ size := by
  induction fuel generalizing l with
  | zero => simp [chunkAux] at hb
  | succ f ih =>
      cases l with
      | nil => simp [chunkAux] at hb
      | cons x xs =>
          simp only [chunkAux, List.mem_cons] at hb
          rcases hb with hb | hb
          · rw [hb]
            simp [List.length_take_le size (x :: xs)]
          · exact ih _ hb

theorem chunkAux_count {α : Type} [DecidableEq α] (fuel size : Nat)
    (l : List α) (a : α) (hs : 0 < size) (hf : l.length ≤ fuel) :
    ((chunkAux fuel size l).map (fun b => b.count a)).sum = l.count a := by
  have := chunkAux_flatten fuel size l hs hf
  calc ((chunkAux fuel size l).map (fun b => b.count a)).sum
      = (chunkAux fuel size l).flatten.count a := by
        rw [List.count_flatten]
    _ = l.count a := by rw [this]

theorem ceilDiv_zero (size : Nat) (hs : 0 < size) : ceilDiv 0 size = 0 := by
  rw [ceilDiv]
  exact Nat.div_eq_of_lt (by omega)

theorem chunkAux_length {α : Type} (fuel size : Nat) (l : List α)
    (hs : 0 < size) (hf : l.length ≤ fuel) :
    (chunkAux fuel size l).length = ceilDiv l.length size := by
  induction fuel generalizing l with
  | zero =>
      cases l with
      | nil => simp [chunkAux, ceilDiv_zero size hs]
      | cons x xs => simp at hf
  | succ f ih =>
      cases l with
      | nil => simp [chunkAux, ceilDiv_zero size hs]
      | cons x xs =>
          simp only [chunkAux, List.length_cons]
          rw [ih ((x :: xs).drop size)
            (by
              simp only [List.length_drop, List.length_cons]
              simp only [List.length_cons] at hf
              omega)]
          simp only [List.length_drop, List.length_cons]
          rcases Nat.lt_or_ge (xs.length + 1) (size + 1) with h | h
          · have h0 : xs.length + 1 - size = 0 := by omega
            have h1 : ceilDiv (xs.length + 1) size = 1 := by
              apply le_antisymm
              · rw [ceilDiv_le_iff _ _ _ hs]
                omega
              · exact ceilDiv_pos _ _ (by omega) hs
            rw [h0, ceilDiv_zero size hs, h1]
          · have key : ceilDiv (xs.length + 1) size
                = ceilDiv (xs.length + 1 - size) size + 1 := by
              rw [ceilDiv, ceilDiv]
              have hrw : xs.length + 1 + size - 1
                  = (xs.length + 1 - size + size - 1) + size := by omega
              rw [hrw, Nat.add_div_right _ hs]
            rw [key]

theorem chunkAux_dropLast_length {α : Type} (fuel size : Nat) (l : List α)
    (b : List α) (hs : 0 < size) (hf : l.length ≤ fuel)
    (hb : b ∈ (chunkAux fuel size l).dropLast) : b.length = size := by
  induction fuel generalizing l with
  | zero =>
      cases l with
      | nil => simp [chunkAux] at hb
      | cons x xs => simp at hf
  | succ f ih =>
      cases l with
      | nil => simp [chunkAux] at hb
      | cons x xs =>
          simp only [chunkAux] at hb
          rcases hrest : chunkAux f size ((x :: xs).drop size) with _ | ⟨c, cs⟩
          · rw [hrest] at hb
            simp at hb
          · rw [hrest] at hb
            rw [List.dropLast_cons_of_ne_nil (by simp)] at hb
            rcases List.mem_cons.mp hb with h | h
            · -- b is the first chunk and a later chunk exists, so the
              -- remainder was nonempty and the take was full
              have hd : (x :: xs).drop size ≠ [] := by
                intro hnil
                rw [hnil] at hrest
                cases f <;> simp [chunkAux] at hrest
              have hlen : size ≤ (x :: xs).length := by
                by_contra hc
                push_neg at hc
                exact hd (List.drop_eq_nil_of_le (le_of_lt hc))
              rw [h, List.length_take]
              omega
            · exact ih _
                (by
                  simp only [List.length_drop, List.length_cons]
                  simp only [List.length_cons] at hf
                  omega)
                (hrest ▸ h)

/-! ## Structural lemmas about reconstruction -/

theorem replaceVal_empty (m : List (String × String)) (k s : String) :
    replaceVal m [] k s = s := by
  rw [replaceVal]
  rcases getAssoc m k with _ | src
  · rfl
  · simp [getAssoc]

mutual

theorem applyJ_empty (m : List (String × String)) (pfx : List String)
    (d : Json) : applyJ m [] pfx d = d := by
  cases d with
  | str s => simp [applyJ, replaceVal_empty]
  | num n => rfl
  | bool b => rfl
  | null => rfl
  | arr xs => simp [applyJ, applyA_empty]
  | obj fs => simp [applyJ, applyO_empty]

theorem applyA_empty (m : List (String × String)) (pfx : List String)
    (i : Nat) (xs : JsonArr) : applyA m [] pfx i xs = xs := by
  cases xs with
  | nil => rfl
  | cons x rest => simp [applyA, applyJ_empty, applyA_empty]

theorem applyO_empty (m : List (String × String)) (pfx : List String)
    (fs : JsonObj) : applyO m [] pfx fs = fs := by
  cases fs with
  | nil => rfl
  | cons k v rest => simp [applyO, applyJ_empty, applyO_empty]

end

mutual

theorem flatten_applyJ (m tr : List (String × String)) (pfx : List String)
    (d : Json) :
    flattenJ pfx (applyJ m tr pfx d) =
      (flattenJ pfx d).map (fun kv => (kv.1, replaceVal m tr kv.1 kv.2)) := by
  cases d with
  | str s => simp [applyJ, flattenJ]
  | num n => rfl
  | bool b => rfl
  | null => rfl
  | arr xs => simp [applyJ, flattenJ, flatten_applyA]
  | obj fs => simp [applyJ, flattenJ, flatten_applyO]

theorem flatten_applyA (m tr : List (String × String)) (pfx : List String)
    (i : Nat) (xs : JsonArr) :
    flattenA pfx i (applyA m tr pfx i xs) =
      (flattenA pfx i xs).map (fun kv => (kv.1, replaceVal m tr kv.1 kv.2)) := by
  cases xs with
  | nil => rfl
  | cons x rest =>
      simp [applyA, flattenA, flatten_applyJ, flatten_applyA, List.map_append]

theorem flatten_applyO (m tr : List (String × String)) (pfx : List String)
    (fs : JsonObj) :
    flattenO pfx (applyO m tr pfx fs) =
      (flattenO pfx fs).map (fun kv => (kv.1, replaceVal m tr kv.1 kv.2)) := by
  cases fs with
  | nil => rfl
  | cons k v rest =>
      simp [applyO, flattenO, flatten_applyJ, flatten_applyO, List.map_append]

end

/-- Entries of the structurally rebuilt document: same encoded paths,
each value put through `replaceVal`. -/
theorem flattenEntries_applyStruct (m tr : List (String × String))
    (d : Json) :
    flattenEntries (applyStruct m tr d) =
      (flattenEntries d).map (fun kv => (kv.1, replaceVal m tr kv.1 kv.2)) :=
  flatten_applyJ m tr [] d

/-! ## Shape preservation -/

mutual

theorem shape_applyJ (m tr : List (String × String)) (pfx : List String)
    (d : Json) : shapeJ (applyJ m tr pfx d) = shapeJ d := by
  cases d with
  | str s => rfl
  | num n => rfl
  | bool b => rfl
  | null => rfl
  | arr xs => simp [applyJ, shapeJ, shape_applyA]
  | obj fs => simp [applyJ, shapeJ, shape_applyO]

theorem shape_applyA (m tr : List (String × String)) (pfx : List String)
    (i : Nat) (xs : JsonArr) : shapeA (applyA m tr pfx i xs) = shapeA xs := by
  cases xs with
  | nil => rfl
  | cons x rest => simp [applyA, shapeA, shape_applyJ, shape_applyA]

theorem shape_applyO (m tr : List (String × String)) (pfx : List String)
    (fs : JsonObj) : shapeO (applyO m tr pfx fs) = shapeO fs := by
  cases fs with
  | nil => rfl
  | cons k v rest => simp [applyO, shapeO, shape_applyJ, shape_applyO]

end

/-- In a collision-free document, the flattened path map resolves each
leaf entry to exactly its own value. -/
theorem srcMap_resolves (d : Json) (hn : NoCollide d) (k s : String)
    (hm : (k, s) ∈ flattenEntries d) :
    getAssoc (flattenObjectWithPaths d) k = some s := by
  rw [flattenObjectWithPaths, getAssoc_mkMap, lastAssoc_of_nodup _ _ hn]
  exact getAssoc_of_mem_nodup _ _ _ hn hm

/-! ## The `parseInt` round-trip on canonical decimal renderings -/

theorem digitChar_isDigit (m : Nat) (hm : m < 10) :
    (Nat.digitChar m).isDigit = true ∧ (Nat.digitChar m).toNat = m + 48 := by
  interval_cases m <;> exact ⟨by decide, by decide⟩

theorem digitsVal_append (l : List Char) (c : Char) :
    digitsVal (l ++ [c]) = digitsVal l * 10 + (c.toNat - 48) := by
  simp [digitsVal, List.foldl_append]

/-- `Nat.toDigitsCore` emits, before its accumulator, a nonempty digit
run whose decimal value is the input. -/
theorem toDigitsCore_spec (fuel : Nat) : ∀ (n : Nat) (ds : List Char),
    n < fuel → ∃ pre, Nat.toDigitsCore 10 fuel n ds = pre ++ ds ∧
      ¬(pre = []) ∧ pre.all Char.isDigit = true ∧ digitsVal pre = n := by
  induction fuel with
  | zero => intro n ds h; omega
  | succ fuel ih =>
      intro n ds h
      have hd := digitChar_isDigit (n % 10) (Nat.mod_lt n (by omega))
      by_cases h0 : n / 10 = 0
      · refine ⟨[Nat.digitChar (n % 10)], ?_, by simp, ?_, ?_⟩
        · rw [Nat.toDigitsCore]
          simp [h0]
        · simp [hd.1]
        · have h2 := hd.2
          have hmod := Nat.div_add_mod n 10
          simp only [digitsVal, List.foldl_cons, List.foldl_nil]
          omega
      · have hn0 : 0 < n := by
          rcases Nat.eq_zero_or_pos n with h' | h'
          · exact absurd (by simp [h']) h0
          · exact h'
        obtain ⟨pre, he, hne, hall, hval⟩ :=
          ih (n / 10) (Nat.digitChar (n % 10) :: ds)
            (by
              have hlt : n / 10 < n := Nat.div_lt_self hn0 (by omega)
              omega)
        refine ⟨pre ++ [Nat.digitChar (n % 10)], ?_, by simp, ?_, ?_⟩
        · rw [Nat.toDigitsCore]
          simp only [h0, if_false]
          rw [he, List.append_assoc]
          rfl
        · simp only [List.all_append, hall, Bool.true_and, List.all_cons,
            List.all_nil, Bool.and_true, hd.1]
        · rw [digitsVal_append, hval]
          have h2 := hd.2
          have hmod := Nat.div_add_mod n 10
          omega

/-- `toString (n : Nat)` is a nonempty digit run re-parsing to `n`. -/
theorem toString_nat_spec (n : Nat) :
    ¬((toString n : String).data = []) ∧
    (toString n : String).data.all Char.isDigit = true ∧
    digitsVal (toString n : String).data = n := by
  obtain ⟨pre, he, hne, hall, hval⟩ := toDigitsCore_spec (n + 1) n [] (by omega)
  have hto : (toString n : String).data = pre := by
    show (Nat.repr n).data = pre
    rw [Nat.repr, Nat.toDigits, he]
    simp [List.asString]
  rw [hto]
  exact ⟨hne, hall, hval⟩

theorem isDigit_not_ws (c : Char) (h : c.isDigit = true) :
    c.isWhitespace = false := by
  by_cases h1 : c = ' '
  · subst h1; exact absurd h (by decide)
  by_cases h2 : c = '\t'
  · subst h2; exact absurd h (by decide)
  by_cases h3 : c = '\r'
  · subst h3; exact absurd h (by decide)
  by_cases h4 : c = '\n'
  · subst h4; exact absurd h (by decide)
  simp [Char.isWhitespace, h1, h2, h3, h4]

theorem isDigit_not_sym (c : Char) (h : c.isDigit = true) :
    ¬(c = 'x') ∧ ¬(c = 'X') ∧ ¬(c = '-') ∧ ¬(c = '+') := by
  refine ⟨?_, ?_, ?_, ?_⟩ <;> (intro he; subst he; exact absurd h (by decide))

theorem takeWhile_all {α : Type} (p : α → Bool) (l : List α)
    (h : l.all p = true) : l.takeWhile p = l := by
  induction l with
  | nil => rfl
  | cons c cs ih =>
      simp only [List.all_cons, Bool.and_eq_true] at h
      simp [List.takeWhile_cons, h.1, ih h.2]

theorem parseIntTail_digits (cs : List Char) (hne : ¬(cs = []))
    (hall : cs.all Char.isDigit = true) :
    parseIntTail 1 cs = some ((digitsVal cs : Nat) : Int) := by
  have htake := takeWhile_all Char.isDigit cs hall
  cases cs with
  | nil => exact absurd rfl hne
  | cons c1 rest1 =>
      cases rest1 with
      | nil =>
          show (match List.takeWhile Char.isDigit [c1] with
            | [] => none
            | ds => some (1 * (digitsVal ds : Int))) = _
          rw [htake]
          simp
      | cons c2 rest =>
          have hd2 : c2.isDigit = true := by
            simp only [List.all_cons, Bool.and_eq_true] at hall
            exact hall.2.1
          rw [parseIntTail, if_neg, htake]
          · simp
          · rintro ⟨-, hx | hx⟩
            · exact (isDigit_not_sym c2 hd2).1 hx
            · exact (isDigit_not_sym c2 hd2).2.1 hx

theorem dropWhile_ws_of_digits (l : List Char)
    (h : l.all Char.isDigit = true) :
    l.dropWhile Char.isWhitespace = l := by
  cases l with
  | nil => rfl
  | cons c cs =>
      have hc : c.isDigit = true := by
        simp only [List.all_cons, Bool.and_eq_true] at h
        exact h.1
      simp [List.dropWhile_cons, isDigit_not_ws c hc]

theorem parseIntJS_toString (n : Nat) :
    parseIntJS (toString n) = some (n : Int) := by
  obtain ⟨hne, hall, hval⟩ := toString_nat_spec n
  obtain ⟨c, rest, hdata⟩ :
      ∃ c rest, (toString n : String).data = c :: rest := by
    cases hd : (toString n : String).data with
    | nil => exact absurd hd hne
    | cons c rest => exact ⟨c, rest, rfl⟩
  have hc : c.isDigit = true := by
    rw [hdata] at hall
    simp only [List.all_cons, Bool.and_eq_true] at hall
    exact hall.1
  rw [parseIntJS, dropWhile_ws_of_digits _ hall, hdata]
  show (if c = '-' then parseIntTail (-1) rest
    else if c = '+' then parseIntTail 1 rest
    else parseIntTail 1 (c :: rest)) = some (n : Int)
  rw [if_neg (isDigit_not_sym c hc).2.2.1,
    if_neg (isDigit_not_sym c hc).2.2.2]
  rw [parseIntTail_digits (c :: rest) (by simp) (hdata ▸ hall)]
  rw [← hdata, hval]

theorem natCanon_toString (n : Nat) : natCanon? (toString n) = some n := by
  obtain ⟨hne, hall, hval⟩ := toString_nat_spec n
  rw [natCanon?, if_pos ⟨hne, hall⟩, hval, if_pos rfl]

/-! ## Navigation keys of path segments -/

theorem navKey_plain (k : String) (h : isBracketSeg k = false) :
    navKey k = k := by
  rw [navKey, if_neg]
  simp [h]

theorem getLast?_snoc {α : Type} (l : List α) (a : α) :
    (l ++ [a]).getLast? = some a := by
  induction l with
  | nil => rfl
  | cons x xs ih =>
      rw [List.cons_append]
      cases hx : xs ++ [a] with
      | nil => simp at hx
      | cons y ys =>
          rw [List.getLast?_cons_cons, ← hx, ih]

theorem arraySeg_data (i : Nat) :
    (arraySeg i).data = ('[' :: (toString i : String).data) ++ [']'] := by
  show ("[" ++ toString i ++ "]").data = _
  simp [String.data_append]

theorem isBracketSeg_arraySeg (i : Nat) :
    isBracketSeg (arraySeg i) = true := by
  rw [isBracketSeg, arraySeg_data, getLast?_snoc]
  simp

theorem bracketInner_arraySeg (i : Nat) :
    bracketInner (arraySeg i) = toString i := by
  rw [bracketInner, arraySeg_data, List.cons_append, List.drop_succ_cons,
    List.drop_zero, List.dropLast_concat]

theorem navKey_arraySeg (i : Nat) : navKey (arraySeg i) = toString i := by
  rw [navKey, if_pos (isBracketSeg_arraySeg i), bracketInner_arraySeg,
    parseIntJS_toString]
  rfl

theorem natCanon_navKey_arraySeg (i : Nat) :
    natCanon? (navKey (arraySeg i)) = some i := by
  rw [navKey_arraySeg, natCanon_toString]

/-! ## Object and array write primitives -/

theorem getO_setO_self : ∀ (fs : JsonObj) (k : String) (v : Json),
    getO (setO fs k v) k = some v
  | .nil, k, v => by simp [setO, getO]
  | .cons k' v' tl, k, v => by
      rw [setO]
      by_cases h : k' = k
      · simp [h, getO]
      · simp [getO, h, getO_setO_self tl k v]

theorem setO_setO : ∀ (fs : JsonObj) (k : String) (a b : Json),
    setO (setO fs k a) k b = setO fs k b
  | .nil, k, a, b => by simp [setO]
  | .cons k' v' tl, k, a, b => by
      rw [setO]
      by_cases h : k' = k
      · simp [h, setO]
      · simp [setO, h, setO_setO tl k a b]

theorem setO_self : ∀ (fs : JsonObj) (k : String) (c : Json),
    getO fs k = some c → setO fs k c = fs
  | .nil, k, c => by intro h; simp [getO] at h
  | .cons k' v' tl, k, c => by
      intro h
      rw [getO] at h
      rw [setO]
      by_cases hk : k' = k
      · rw [if_pos hk] at h
        rw [if_pos hk, hk]
        injection h with h
        rw [h]
      · rw [if_neg hk] at h
        rw [if_neg hk, setO_self tl k c h]

theorem getO_appendO : ∀ (pre : JsonObj) (tl : JsonObj) (k : String),
    hasKeyO pre k = false → getO (appendO pre tl) k = getO tl k
  | .nil, tl, k => by intro h; rfl
  | .cons k' v' rest, tl, k => by
      intro h
      rw [hasKeyO, Bool.or_eq_false_iff] at h
      rw [appendO, getO, if_neg (by simpa using h.1),
        getO_appendO rest tl k h.2]

theorem setO_appendO : ∀ (pre : JsonObj) (tl : JsonObj) (k : String)
    (v : Json), hasKeyO pre k = false →
    setO (appendO pre tl) k v = appendO pre (setO tl k v)
  | .nil, tl, k, v => by intro h; rfl
  | .cons k' v' rest, tl, k, v => by
      intro h
      rw [hasKeyO, Bool.or_eq_false_iff] at h
      rw [appendO, setO, if_neg (by simpa using h.1),
        setO_appendO rest tl k v h.2, appendO]

theorem appendO_assoc : ∀ (a b c : JsonObj),
    appendO (appendO a b) c = appendO a (appendO b c)
  | .nil, b, c => rfl
  | .cons k v tl, b, c => by
      rw [appendO, appendO, appendO_assoc tl b c, appendO]

theorem hasKeyO_appendO : ∀ (pre tl : JsonObj) (k : String),
    hasKeyO (appendO pre tl) k = (hasKeyO pre k || hasKeyO tl k)
  | .nil, tl, k => by simp [hasKeyO, appendO]
  | .cons k' v' rest, tl, k => by
      rw [appendO, hasKeyO, hasKeyO_appendO rest tl k, hasKeyO,
        Bool.or_assoc]

theorem getIdx_setIdx_self (i : Nat) : ∀ (xs : JsonArr) (v : Json),
    getIdx (setIdx xs i v) i = some v := by
  induction i with
  | zero => intro xs v; cases xs <;> simp [setIdx, getIdx]
  | succ j ih => intro xs v; cases xs <;> simp [setIdx, getIdx, ih]

theorem setIdx_setIdx (i : Nat) : ∀ (xs : JsonArr) (a b : Json),
    setIdx (setIdx xs i a) i b = setIdx xs i b := by
  induction i with
  | zero => intro xs a b; cases xs <;> simp [setIdx]
  | succ j ih => intro xs a b; cases xs <;> simp [setIdx, ih]

theorem setIdx_self (i : Nat) : ∀ (xs : JsonArr) (c : Json),
    getIdx xs i = some c → setIdx xs i c = xs := by
  induction i with
  | zero =>
      intro xs c h
      cases xs with
      | nil => simp [getIdx] at h
      | cons x tl =>
          rw [getIdx] at h
          injection h with h
          rw [setIdx, h]
  | succ j ih =>
      intro xs c h
      cases xs with
      | nil => simp [getIdx] at h
      | cons x tl =>
          rw [getIdx] at h
          rw [setIdx, ih tl c h]

theorem lenA_appendA : ∀ (a b : JsonArr),
    lenA (appendA a b) = lenA a + lenA b
  | .nil, b => by simp [appendA, lenA]
  | .cons x tl, b => by
      rw [appendA, lenA, lenA, lenA_appendA tl b]
      omega

theorem appendA_assoc : ∀ (a b c : JsonArr),
    appendA (appendA a b) c = appendA a (appendA b c)
  | .nil, b, c => rfl
  | .cons x tl, b, c => by
      rw [appendA, appendA, appendA_assoc tl b c, appendA]

theorem getIdx_appendA_len : ∀ (pre : JsonArr) (x : Json) (tl : JsonArr),
    getIdx (appendA pre (.cons x tl)) (lenA pre) = some x
  | .nil, x, tl => rfl
  | .cons y rest, x, tl => by
      rw [appendA, lenA, getIdx, getIdx_appendA_len rest x tl]

theorem setIdx_appendA_len : ∀ (pre : JsonArr) (x y : Json) (tl : JsonArr),
    setIdx (appendA pre (.cons x tl)) (lenA pre) y
      = appendA pre (.cons y tl)
  | .nil, x, y, tl => rfl
  | .cons z rest, x, y, tl => by
      rw [appendA, lenA, setIdx, setIdx_appendA_len rest x y tl, appendA]

/-! ## Single write-backs through the navigation -/

theorem writeUpd_obj_single (G : JsonObj) (p : String) (v : String) :
    writeUpd (Json.obj G) ([p], v)
      = some (Json.obj (setO G (navKey p) (Json.str v))) := by
  rw [writeUpd]
  rfl

theorem writeUpd_arr_single (xs : JsonArr) (p : String) (v : String)
    (i : Nat) (hi : natCanon? (navKey p) = some i) :
    writeUpd (Json.arr xs) ([p], v)
      = some (Json.arr (setIdx xs i (Json.str v))) := by
  rw [writeUpd]
  show setProp (Json.arr xs) (navKey p) (Json.str v) = _
  rw [setProp, hi]

theorem writeUpd_obj_cons (G : JsonObj) (p : String) (q : List String)
    (v : String) (c : Json) (hq : ¬(q = []))
    (hget : getO G (navKey p) = some c) :
    writeUpd (Json.obj G) (p :: q, v)
      = (writeUpd c (q, v)).map
          (fun c' => Json.obj (setO G (navKey p) c')) := by
  match q, hq with
  | a :: q', _ =>
      rw [writeUpd, writeUpd]
      show (match (p :: a :: q').getLast? with
        | some lk =>
            updateAt (navKey lk) (Json.str v) ((p :: a :: q').dropLast)
              (Json.obj G)
        | none => none) = _
      rw [List.getLast?_cons_cons]
      cases hlk : (a :: q').getLast? with
      | none => simp at hlk
      | some lk =>
          show updateAt (navKey lk) (Json.str v)
              (p :: (a :: q').dropLast) (Json.obj G) = _
          rw [updateAt]
          simp only [hget]

theorem writeUpd_arr_cons (xs : JsonArr) (p : String) (q : List String)
    (v : String) (i : Nat) (c : Json) (hq : ¬(q = []))
    (hi : natCanon? (navKey p) = some i) (hget : getIdx xs i = some c) :
    writeUpd (Json.arr xs) (p :: q, v)
      = (writeUpd c (q, v)).map
          (fun c' => Json.arr (setIdx xs i c')) := by
  match q, hq with
  | a :: q', _ =>
      rw [writeUpd, writeUpd]
      show (match (p :: a :: q').getLast? with
        | some lk =>
            updateAt (navKey lk) (Json.str v) ((p :: a :: q').dropLast)
              (Json.arr xs)
        | none => none) = _
      rw [List.getLast?_cons_cons]
      cases hlk : (a :: q').getLast? with
      | none => simp at hlk
      | some lk =>
          show updateAt (navKey lk) (Json.str v)
              (p :: (a :: q').dropLast) (Json.arr xs) = _
          rw [updateAt]
          simp only [hi, hget]

/-! ## Folding a child's write-backs through its parent -/

theorem foldlM_writeUpd_obj (us : List (List String × String)) :
    ∀ (G : JsonObj) (k : String) (c : Json), isBracketSeg k = false →
    getO G k = some c → (∀ u ∈ us, ¬(u.1 = [])) →
    (us.map (fun u => (k :: u.1, u.2))).foldlM writeUpd (Json.obj G)
      = (us.foldlM writeUpd c).map (fun c' => Json.obj (setO G k c')) := by
  induction us with
  | nil =>
      intro G k c hk hget _
      simp [List.foldlM, setO_self G k c hget]
  | cons u us ih =>
      intro G k c hk hget hne
      rw [List.map_cons, List.foldlM_cons, List.foldlM_cons]
      have hnav : navKey k = k := navKey_plain k hk
      have hu : ¬(u.1 = []) := hne u (List.mem_cons_self _ _)
      have hw := writeUpd_obj_cons G k u.1 u.2 c hu (by rw [hnav]; exact hget)
      rw [hnav] at hw
      cases hcw : writeUpd c u with
      | none =>
          have : writeUpd c (u.1, u.2) = none := by
            rw [← hcw]
          rw [hw, this]
          simp
      | some c' =>
          have : writeUpd c (u.1, u.2) = some c' := by
            rw [← hcw]
          rw [hw, this]
          show (us.map (fun u => (k :: u.1, u.2))).foldlM writeUpd
            (Json.obj (setO G k c')) = _
          rw [ih (setO G k c') k c' hk (getO_setO_self G k c')
            (fun x hx => hne x (List.mem_cons_of_mem _ hx))]
          simp only [setO_setO]
          rfl

theorem foldlM_writeUpd_arr (us : List (List String × String)) :
    ∀ (xs : JsonArr) (i : Nat) (c : Json),
    getIdx xs i = some c → (∀ u ∈ us, ¬(u.1 = [])) →
    (us.map (fun u => (arraySeg i :: u.1, u.2))).foldlM writeUpd
        (Json.arr xs)
      = (us.foldlM writeUpd c).map (fun c' => Json.arr (setIdx xs i c')) := by
  induction us with
  | nil =>
      intro xs i c hget _
      simp [List.foldlM, setIdx_self i xs c hget]
  | cons u us ih =>
      intro xs i c hget hne
      rw [List.map_cons, List.foldlM_cons, List.foldlM_cons]
      have hu : ¬(u.1 = []) := hne u (List.mem_cons_self _ _)
      have hw := writeUpd_arr_cons xs (arraySeg i) u.1 u.2 i c hu
        (natCanon_navKey_arraySeg i) hget
      cases hcw : writeUpd c u with
      | none =>
          have : writeUpd c (u.1, u.2) = none := by
            rw [← hcw]
          rw [hw, this]
          simp
      | some c' =>
          have : writeUpd c (u.1, u.2) = some c' := by
            rw [← hcw]
          rw [hw, this]
          show (us.map (fun u => (arraySeg i :: u.1, u.2))).foldlM writeUpd
            (Json.arr (setIdx xs i c')) = _
          rw [ih (setIdx xs i c') i c' (getIdx_setIdx_self i xs c')
            (fun x hx => hne x (List.mem_cons_of_mem _ hx))]
          simp only [setIdx_setIdx]
          rfl

/-! ## The collected write-backs -/

theorem collectA_ne_nil (sm tr : List (String × String)) :
    ∀ (xs : JsonArr) (pfx : List String) (i : Nat),
    ∀ u ∈ collectA sm tr pfx i xs, ¬(u.1 = [])
  | .nil => by intro pfx i u hu; simp [collectA] at hu
  | .cons x tl => by
      intro pfx i u hu
      rw [collectA] at hu
      rcases List.mem_append.mp hu with h | h
      · obtain ⟨w, -, rfl⟩ := List.mem_map.mp h
        simp
      · exact collectA_ne_nil sm tr tl pfx (i + 1) u h

theorem collectO_ne_nil (sm tr : List (String × String)) :
    ∀ (fs : JsonObj) (pfx : List String),
    ∀ u ∈ collectO sm tr pfx fs, ¬(u.1 = [])
  | .nil => by intro pfx u hu; simp [collectO] at hu
  | .cons k v tl => by
      intro pfx u hu
      rw [collectO] at hu
      rcases List.mem_append.mp hu with h | h
      · obtain ⟨w, -, rfl⟩ := List.mem_map.mp h
        simp
      · exact collectO_ne_nil sm tr tl pfx u h

/-- At a string leaf the collector and `replaceVal` decide by the same
lookups: either nothing is triggered and the leaf keeps its value, or one
non-empty write is triggered with exactly the replacement value. -/
theorem collect_str_cases (sm tr : List (String × String))
    (pfx : List String) (s : String) :
    (collectJ sm tr pfx (Json.str s) = [] ∧
      replaceVal sm tr (encodePath pfx) s = s) ∨
    (∃ t, collectJ sm tr pfx (Json.str s) = [([], t)] ∧ ¬(t = "") ∧
      replaceVal sm tr (encodePath pfx) s = t) := by
  rcases hsm : getAssoc sm (encodePath pfx) with - | src
  · exact Or.inl ⟨by simp [collectJ, hsm], by simp [replaceVal, hsm]⟩
  · rcases htr : getAssoc tr (hashString src) with - | t
    · exact Or.inl ⟨by simp [collectJ, hsm, htr],
        by simp [replaceVal, hsm, htr]⟩
    · by_cases ht : t = ""
      · exact Or.inl ⟨by simp [collectJ, hsm, htr, ht],
          by simp [replaceVal, hsm, htr, ht]⟩
      · exact Or.inr ⟨t, by simp [collectJ, hsm, htr, ht], ht,
          by simp [replaceVal, hsm, htr, ht]⟩

/-! ## Correspondence of the faithful rebuild with the structural one -/

mutual

theorem collect_fold_arr (sm tr : List (String × String))
    (pfx : List String) (xs : JsonArr) (hs : safeA xs = true) :
    ∀ (pre : JsonArr),
    (collectA sm tr pfx (lenA pre) xs).foldlM writeUpd
        (Json.arr (appendA pre xs))
      = some (Json.arr (appendA pre (applyA sm tr pfx (lenA pre) xs))) := by
  cases xs with
  | nil =>
      intro pre
      simp [collectA, applyA, List.foldlM]
  | cons x tl =>
      intro pre
      rw [safeA, Bool.and_eq_true] at hs
      rw [collectA, applyA, List.foldlM_append]
      have hget := getIdx_appendA_len pre x tl
      have hstep :
          ((collectJ sm tr (pfx ++ [arraySeg (lenA pre)]) x).map
              (fun u => (arraySeg (lenA pre) :: u.1, u.2))).foldlM writeUpd
            (Json.arr (appendA pre (.cons x tl)))
          = some (Json.arr (appendA pre
              (.cons (applyJ sm tr (pfx ++ [arraySeg (lenA pre)]) x) tl))) := by
        cases x with
        | str s =>
            rcases collect_str_cases sm tr (pfx ++ [arraySeg (lenA pre)]) s
              with ⟨hc, hr⟩ | ⟨t, hc, -, hr⟩
            · rw [hc]
              show some (Json.arr (appendA pre (.cons (Json.str s) tl))) = _
              rw [applyJ, hr]
            · rw [hc]
              show (writeUpd (Json.arr (appendA pre (.cons (Json.str s) tl)))
                ([arraySeg (lenA pre)], t)).bind
                  (fun s => List.foldlM writeUpd s []) = _
              rw [writeUpd_arr_single _ _ _ (lenA pre)
                (natCanon_navKey_arraySeg (lenA pre)),
                setIdx_appendA_len]
              show some (Json.arr (appendA pre (.cons (Json.str t) tl))) = _
              rw [applyJ, hr]
        | num m =>
            rw [collectJ]
            show some (Json.arr (appendA pre (.cons (Json.num m) tl))) = _
            rw [applyJ]
        | bool b =>
            rw [collectJ]
            show some (Json.arr (appendA pre (.cons (Json.bool b) tl))) = _
            rw [applyJ]
        | null =>
            rw [collectJ]
            show some (Json.arr (appendA pre (.cons Json.null tl))) = _
            rw [applyJ]
        | arr ys =>
            rw [collectJ, applyJ]
            rw [foldlM_writeUpd_arr _ _ _ _ hget
              (collectA_ne_nil sm tr ys (pfx ++ [arraySeg (lenA pre)]) 0)]
            have hys : (collectA sm tr (pfx ++ [arraySeg (lenA pre)]) 0
                ys).foldlM writeUpd (Json.arr ys)
                = some (Json.arr (applyA sm tr
                    (pfx ++ [arraySeg (lenA pre)]) 0 ys)) :=
              collect_fold_arr sm tr (pfx ++ [arraySeg (lenA pre)]) ys
                (by simpa [safeJ] using hs.1) .nil
            rw [hys, Option.map_some', setIdx_appendA_len]
        | obj gs =>
            rw [collectJ, applyJ]
            rw [foldlM_writeUpd_arr _ _ _ _ hget
              (collectO_ne_nil sm tr gs (pfx ++ [arraySeg (lenA pre)]))]
            have hgs : (collectO sm tr (pfx ++ [arraySeg (lenA pre)])
                gs).foldlM writeUpd (Json.obj gs)
                = some (Json.obj (applyO sm tr
                    (pfx ++ [arraySeg (lenA pre)]) gs)) :=
              collect_fold_obj sm tr (pfx ++ [arraySeg (lenA pre)]) gs
                (by simpa [safeJ] using hs.1) .nil (fun k2 _ => rfl)
            rw [hgs, Option.map_some', setIdx_appendA_len]
      rw [hstep]
      show (collectA sm tr pfx (lenA pre + 1) tl).foldlM writeUpd
        (Json.arr (appendA pre (.cons (applyJ sm tr
          (pfx ++ [arraySeg (lenA pre)]) x) tl))) = _
      have happ : appendA pre (.cons (applyJ sm tr
          (pfx ++ [arraySeg (lenA pre)]) x) tl)
          = appendA (appendA pre (.cons (applyJ sm tr
            (pfx ++ [arraySeg (lenA pre)]) x) .nil)) tl := by
        rw [appendA_assoc]
        rfl
      have hlen : lenA (appendA pre (.cons (applyJ sm tr
          (pfx ++ [arraySeg (lenA pre)]) x) .nil)) = lenA pre + 1 := by
        rw [lenA_appendA]
        rfl
      rw [happ, ← hlen]
      rw [collect_fold_arr sm tr pfx tl hs.2
        (appendA pre (.cons (applyJ sm tr
          (pfx ++ [arraySeg (lenA pre)]) x) .nil))]
      rw [hlen, appendA_assoc]
      rfl

theorem collect_fold_obj (sm tr : List (String × String))
    (pfx : List String) (fs : JsonObj) (hs : safeO fs = true) :
    ∀ (pre : JsonObj),
    (∀ k2, hasKeyO fs k2 = true → hasKeyO pre k2 = false) →
    (collectO sm tr pfx fs).foldlM writeUpd (Json.obj (appendO pre fs))
      = some (Json.obj (appendO pre (applyO sm tr pfx fs))) := by
  cases fs with
  | nil =>
      intro pre _
      simp [collectO, applyO, List.foldlM]
  | cons k v tl =>
      intro pre hdisj
      rw [safeO, Bool.and_eq_true, Bool.and_eq_true, Bool.and_eq_true] at hs
      obtain ⟨⟨⟨hkb, hktl⟩, hsv⟩, hstl⟩ := hs
      have hkb' : isBracketSeg k = false := by
        simpa using hkb
      have hktl' : hasKeyO tl k = false := by
        simpa using hktl
      have hkpre : hasKeyO pre k = false :=
        hdisj k (by simp [hasKeyO])
      have hget : getO (appendO pre (.cons k v tl)) k = some v := by
        rw [getO_appendO pre _ k hkpre, getO, if_pos rfl]
      rw [collectO, applyO, List.foldlM_append]
      have hstep :
          ((collectJ sm tr (pfx ++ [k]) v).map
              (fun u => (k :: u.1, u.2))).foldlM writeUpd
            (Json.obj (appendO pre (.cons k v tl)))
          = some (Json.obj (appendO pre
              (.cons k (applyJ sm tr (pfx ++ [k]) v) tl))) := by
        have hsetv : ∀ (w : Json),
            setO (appendO pre (.cons k v tl)) k w
              = appendO pre (.cons k w tl) := by
          intro w
          rw [setO_appendO pre _ k w hkpre, setO, if_pos rfl]
        cases v with
        | str s =>
            rcases collect_str_cases sm tr (pfx ++ [k]) s
              with ⟨hc, hr⟩ | ⟨t, hc, -, hr⟩
            · rw [hc]
              show some (Json.obj (appendO pre (.cons k (Json.str s) tl))) = _
              rw [applyJ, hr]
            · rw [hc]
              show (writeUpd (Json.obj (appendO pre (.cons k (Json.str s) tl)))
                ([k], t)).bind (fun s => List.foldlM writeUpd s []) = _
              rw [writeUpd_obj_single, navKey_plain k hkb', hsetv]
              show some (Json.obj (appendO pre (.cons k (Json.str t) tl))) = _
              rw [applyJ, hr]
        | num m =>
            rw [collectJ]
            show some (Json.obj (appendO pre (.cons k (Json.num m) tl))) = _
            rw [applyJ]
        | bool b =>
            rw [collectJ]
            show some (Json.obj (appendO pre (.cons k (Json.bool b) tl))) = _
            rw [applyJ]
        | null =>
            rw [collectJ]
            show some (Json.obj (appendO pre (.cons k Json.null tl))) = _
            rw [applyJ]
        | arr ys =>
            rw [collectJ, applyJ]
            rw [foldlM_writeUpd_obj _ _ _ _ hkb' hget
              (collectA_ne_nil sm tr ys (pfx ++ [k]) 0)]
            have hys : (collectA sm tr (pfx ++ [k]) 0 ys).foldlM writeUpd
                (Json.arr ys)
                = some (Json.arr (applyA sm tr (pfx ++ [k]) 0 ys)) :=
              collect_fold_arr sm tr (pfx ++ [k]) ys
                (by simpa [safeJ] using hsv) .nil
            rw [hys, Option.map_some', hsetv]
        | obj gs =>
            rw [collectJ, applyJ]
            rw [foldlM_writeUpd_obj _ _ _ _ hkb' hget
              (collectO_ne_nil sm tr gs (pfx ++ [k]))]
            have hgs : (collectO sm tr (pfx ++ [k]) gs).foldlM writeUpd
                (Json.obj gs)
                = some (Json.obj (applyO sm tr (pfx ++ [k]) gs)) :=
              collect_fold_obj sm tr (pfx ++ [k]) gs
                (by simpa [safeJ] using hsv) .nil (fun k2 _ => rfl)
            rw [hgs, Option.map_some', hsetv]
      rw [hstep]
      show (collectO sm tr pfx tl).foldlM writeUpd
        (Json.obj (appendO pre (.cons k (applyJ sm tr (pfx ++ [k]) v) tl)))
          = _
      have happ : appendO pre (.cons k (applyJ sm tr (pfx ++ [k]) v) tl)
          = appendO (appendO pre
              (.cons k (applyJ sm tr (pfx ++ [k]) v) .nil)) tl := by
        rw [appendO_assoc]
        rfl
      have hdisj' : ∀ k2, hasKeyO tl k2 = true →
          hasKeyO (appendO pre
            (.cons k (applyJ sm tr (pfx ++ [k]) v) .nil)) k2 = false := by
        intro k2 hk2
        rw [hasKeyO_appendO]
        have h1 : hasKeyO pre k2 = false :=
          hdisj k2 (by simp [hasKeyO, hk2])
        have h2 : ¬(k = k2) := by
          intro he
          rw [he] at hktl'
          rw [hk2] at hktl'
          exact absurd hktl' (by simp)
        simp [h1, hasKeyO, h2]
      rw [happ]
      rw [collect_fold_obj sm tr pfx tl hstl
        (appendO pre (.cons k (applyJ sm tr (pfx ++ [k]) v) .nil)) hdisj']
      rw [appendO_assoc]
      rfl

end

/-- On a navigation-safe document the faithful rebuild succeeds and every
write-back lands exactly on the leaf its path came from: the result is
the structural rendering. -/
theorem applyTranslations_safe (sm tr : List (String × String)) (d : Json)
    (h : SafeDoc d = true) :
    applyTranslations sm tr d = some (applyStruct sm tr d) := by
  cases d with
  | str s => simp [SafeDoc] at h
  | num n => rfl
  | bool b => rfl
  | null => rfl
  | arr xs =>
      have hx : safeA xs = true := by
        rw [SafeDoc] at h
        exact h
      have hfold : (collectA sm tr [] 0 xs).foldlM writeUpd (Json.arr xs)
          = some (Json.arr (applyA sm tr [] 0 xs)) :=
        collect_fold_arr sm tr [] xs hx .nil
      rw [applyTranslations]
      show (collectA sm tr [] 0 xs).foldlM writeUpd (Json.arr xs) = _
      rw [hfold]
      rfl
  | obj fs =>
      have hx : safeO fs = true := by
        rw [SafeDoc] at h
        exact h
      have hfold : (collectO sm tr [] fs).foldlM writeUpd (Json.obj fs)
          = some (Json.obj (applyO sm tr [] fs)) :=
        collect_fold_obj sm tr [] fs hx .nil (fun k2 _ => rfl)
      rw [applyTranslations]
      show (collectO sm tr [] fs).foldlM writeUpd (Json.obj fs) = _
      rw [hfold]
      rfl

/-- With all documents navigation-safe, the multi-file rebuild loop
completes and outputs the structural rendering of every document. -/
theorem rebuildOutputs_safe (gtr : List (String × String))
    (files : List (String × Json))
    (h : ∀ fd ∈ files, SafeDoc fd.2 = true) :
    rebuildOutputs gtr files
      = files.map (fun fd =>
          (fd.1, applyStruct (flattenObjectWithPaths fd.2) gtr fd.2)) := by
  induction files with
  | nil => rfl
  | cons fd rest ih =>
      rw [rebuildOutputs,
        applyTranslations_safe _ gtr fd.2 (h fd (List.mem_cons_self _ _)),
        List.map_cons, ih (fun x hx => h x (List.mem_cons_of_mem _ hx))]

/-! ## Batch-partition lemmas -/

theorem MAX_BATCH_SIZE_pos : 0 < MAX_BATCH_SIZE := by decide

theorem numBatches_pos (n : Nat) (hn : 0 < n) : 0 < numBatches n :=
  ceilDiv_pos n MAX_BATCH_SIZE hn MAX_BATCH_SIZE_pos

theorem dynamicBatchSize_pos (n : Nat) (hn : 0 < n) :
    0 < dynamicBatchSize n :=
  ceilDiv_pos n (numBatches n) hn (numBatches_pos n hn)

theorem singleBatches_flatten (l : List String) :
    (singleBatches l).flatten = l := by
  cases l with
  | nil => rfl
  | cons x xs =>
      exact chunkAux_flatten _ _ _
        (dynamicBatchSize_pos _ (by simp)) le_rfl

theorem multiBatches_flatten (l : List String) :
    (multiBatches l).flatten = l := by
  cases l with
  | nil => rfl
  | cons x xs =>
      exact chunkAux_flatten _ _ _ MAX_BATCH_SIZE_pos le_rfl

theorem singleBatches_length (l : List String) (hl : l ≠ []) :
    (singleBatches l).length = numBatches l.length := by
  have hn : 0 < l.length := List.length_pos.mpr hl
  rw [singleBatches, chunkList,
    chunkAux_length _ _ _ (dynamicBatchSize_pos _ hn) le_rfl]
  rw [dynamicBatchSize, numBatches]
  exact ceilDiv_triple l.length MAX_BATCH_SIZE hn MAX_BATCH_SIZE_pos

theorem multiBatches_length (l : List String) (hl : l ≠ []) :
    (multiBatches l).length = numBatches l.length := by
  have hn : 0 < l.length := List.length_pos.mpr hl
  rw [multiBatches, chunkList,
    chunkAux_length _ _ _ MAX_BATCH_SIZE_pos le_rfl]
  rfl

theorem singleBatches_le (l : List String) (b : List String)
    (hb : b ∈ singleBatches l) : b.length ≤ dynamicBatchSize l.length :=
  chunkAux_length_le _ _ _ _ hb

theorem multiBatches_le (l : List String) (b : List String)
    (hb : b ∈ multiBatches l) : b.length ≤ MAX_BATCH_SIZE :=
  chunkAux_length_le _ _ _ _ hb

theorem singleBatches_dropLast (l : List String) (b : List String)
    (hl : l ≠ []) (hb : b ∈ (singleBatches l).dropLast) :
    b.length = dynamicBatchSize l.length :=
  chunkAux_dropLast_length _ _ _ _
    (dynamicBatchSize_pos _ (List.length_pos.mpr hl)) le_rfl hb

theorem multiBatches_dropLast (l : List String) (b : List String)
    (hb : b ∈ (multiBatches l).dropLast) : b.length = MAX_BATCH_SIZE :=
  chunkAux_dropLast_length _ _ _ _ MAX_BATCH_SIZE_pos le_rfl hb

/-! ## Claim C2 -/

/-- C2 (corrected): for a nonempty list of `N` cache-miss strings, both
processing paths create `ceil(N / 100)` batches that together cover the
miss list exactly; the single-file path slices at
`dynamicBatchSize = ceil(N / ceil(N / 100))` (every batch but possibly the
last is exactly that size), while the multi-file path slices at
`MAX_BATCH_SIZE = 100` (every batch but possibly the last is exactly 100),
so the two paths do not share the near-equal sizing. -/
theorem batch_partition_shapes (l : List String) (hl : l ≠ []) :
    (singleBatches l).length = numBatches l.length ∧
    (singleBatches l).flatten = l ∧
    (∀ b ∈ (singleBatches l).dropLast, b.length = dynamicBatchSize l.length) ∧
    (∀ b ∈ singleBatches l, b.length ≤ dynamicBatchSize l.length) ∧
    (multiBatches l).length = numBatches l.length ∧
    (multiBatches l).flatten = l ∧
    (∀ b ∈ (multiBatches l).dropLast, b.length = MAX_BATCH_SIZE) ∧
    (∀ b ∈ multiBatches l, b.length ≤ MAX_BATCH_SIZE) :=
  ⟨singleBatches_length l hl, singleBatches_flatten l,
    fun b hb => singleBatches_dropLast l b hl hb,
    fun b hb => singleBatches_le l b hb,
    multiBatches_length l hl, multiBatches_flatten l,
    fun b hb => multiBatches_dropLast l b hb,
    fun b hb => multiBatches_le l b hb⟩

/-- Witness for C2's amended theorem at a concrete two-string miss list. -/
theorem batch_partition_shapes_witness :
    ((["a", "b"] : List String) ≠ []) ∧
    ((singleBatches ["a", "b"]).length = numBatches 2 ∧
      (singleBatches ["a", "b"]).flatten = ["a", "b"] ∧
      (∀ b ∈ (singleBatches ["a", "b"]).dropLast,
        b.length = dynamicBatchSize 2) ∧
      (∀ b ∈ singleBatches ["a", "b"], b.length ≤ dynamicBatchSize 2) ∧
      (multiBatches ["a", "b"]).length = numBatches 2 ∧
      (multiBatches ["a", "b"]).flatten = ["a", "b"] ∧
      (∀ b ∈ (multiBatches ["a", "b"]).dropLast, b.length = MAX_BATCH_SIZE) ∧
      (∀ b ∈ multiBatches ["a", "b"], b.length ≤ MAX_BATCH_SIZE)) :=
  ⟨by decide, batch_partition_shapes ["a", "b"] (by decide)⟩

set_option maxRecDepth 100000 in
/-- Counterexample for C2 as stated: 250 miss strings are sliced into
`[84, 84, 82]` by the single-file path and `[100, 100, 50]` by the
multi-file path — neither path produces the claimed `[84, 83, 83]`. -/
theorem batch_sizes_250_cex :
    (singleBatches demo250).map List.length = [84, 84, 82] ∧
    (multiBatches demo250).map List.length = [100, 100, 50] ∧
    ¬((singleBatches demo250).map List.length = [84, 83, 83]) ∧
    ¬((multiBatches demo250).map List.length = [84, 83, 83]) := by
  constructor
  · rfl
  · constructor
    · rfl
    · constructor
      · intro h
        have h84 : (singleBatches demo250).map List.length = [84, 84, 82] := rfl
        rw [h84] at h
        simp at h
      · intro h
        have h100 : (multiBatches demo250).map List.length = [100, 100, 50] := rfl
        rw [h100] at h
        simp at h

/-! ## Claim C10 -/

/-- C10: in dry-run mode `processSingleFile` returns immediately after
reporting: it issues no backend translate request, produces no output
document, does not save the cache, and leaves the persisted cache exactly
as loaded. -/
theorem dry_run_no_effects (doc : Json) (filePath lang : String)
    (useCache : Bool) (cacheLoaded : Cache)
    (oracle : List String → Option (List String)) :
    (processSingleFile doc filePath lang useCache true cacheLoaded
        oracle).requests = [] ∧
    (processSingleFile doc filePath lang useCache true cacheLoaded
        oracle).output = none ∧
    (processSingleFile doc filePath lang useCache true cacheLoaded
        oracle).cacheSaved = false ∧
    (processSingleFile doc filePath lang useCache true cacheLoaded
        oracle).cacheAfter = cacheLoaded :=
  ⟨rfl, rfl, rfl, rfl⟩

/-! ## Claim C7 -/

/-- C7 (corrected): `saveCache` is ensure-directory followed by a single
direct `writeFile` of the full serialised cache to the cache file path;
there is no temporary file and no atomic rename, so the persist step is
not the all-or-nothing update the spec describes. -/
theorem saveCache_direct_write (dirExists : Bool) (dir : String) (c : Cache)
    (p : String) :
    saveCacheTrace dirExists dir c p =
      ensureCacheDirectoryTrace dirExists dir ++ [FsOp.writeCache p c] ∧
    ¬ isAtomicPersist (saveCacheTrace dirExists dir c p) p := by
  constructor
  · rfl
  · rintro ⟨tmp, c', hne, hw, hr⟩
    rw [saveCacheTrace] at hr
    rcases List.mem_append.mp hr with h | h
    · rw [ensureCacheDirectoryTrace] at h
      by_cases hd : dirExists
      · simp [hd] at h
      · simp [hd] at h
    · simp at h

/-- Witness for C7's amended theorem at concrete arguments. -/
theorem saveCache_direct_write_witness :
    saveCacheTrace true "d" [] "cache.json" =
      ensureCacheDirectoryTrace true "d" ++
        [FsOp.writeCache "cache.json" []] ∧
    ¬ isAtomicPersist (saveCacheTrace true "d" [] "cache.json")
        "cache.json" :=
  saveCache_direct_write true "d" [] "cache.json"

/-- Counterexample for C7 as stated: the persist trace of a concrete
`saveCache` call contains no write-to-temporary-then-rename pattern. -/
theorem saveCache_not_atomic_cex :
    ¬ isAtomicPersist (saveCacheTrace true "dir" [] "cache.json")
      "cache.json" := by
  rintro ⟨tmp, c', hne, hw, hr⟩
  simp [saveCacheTrace, ensureCacheDirectoryTrace] at hr

/-! ## Claim C5 -/

theorem langCacheOf_nil (file lang : String) :
    langCacheOf [] file lang = [] := rfl

theorem cacheSplit_empty (l : List String) : cacheSplit [] l = ([], l) := by
  induction l with
  | nil => rfl
  | cons s rest ih => simp [cacheSplit, ih, getAssoc]

/-- C5 (corrected): a missing backing store, and a store whose contents
fail to parse, both load as the empty cache; a run over the empty cache
treats every source string as a cache miss (all of them are sent in the
requests).  Provided the document is navigation-safe (no bracket-shaped
or repeated object keys), the run completes normally and produces an
output document; a bracket-shaped object key on a leaf's parent path
instead makes the rebuild throw and the run abort (see the
counterexample), independently of the cache failure. -/
theorem cache_load_failure_empty (parse : String → Option Cache)
    (data : String) (hparse : parse data = none) (doc : Json)
    (filePath lang : String)
    (oracle : List String → Option (List String)) :
    loadCache none parse = [] ∧
    loadCache (some data) parse = [] ∧
    (processSingleFile doc filePath lang true false [] oracle).requests.flatten
      = dedupFirst ((flattenObjectWithPaths doc).map Prod.snd) ∧
    (SafeDoc doc = true →
      ((processSingleFile doc filePath lang true false []
        oracle).output).isSome = true) := by
  refine ⟨rfl, ?_, ?_, ?_⟩
  · rw [loadCache, hparse]
  · have hreq : (processSingleFile doc filePath lang true false [] oracle).requests
        = singleBatches (dedupFirst ((flattenObjectWithPaths doc).map Prod.snd)) := by
      simp [processSingleFile, singleSplit, allStringsOf, langCacheOf_nil,
        cacheSplit_empty]
    rw [hreq, singleBatches_flatten]
  · intro hsafe
    have hout : (processSingleFile doc filePath lang true false []
        oracle).output
        = applyTranslations (flattenObjectWithPaths doc)
            (processSingleFile doc filePath lang true false []
              oracle).translations doc := rfl
    rw [hout, applyTranslations_safe _ _ doc hsafe]
    rfl

/-- Witness for C5's amended theorem at a concrete failing parse and
document, with the completion clause discharged on the navigation-safe
`demoDoc`. -/
theorem cache_load_failure_empty_witness :
    failParse "garbage" = none ∧
    (loadCache none failParse = [] ∧
      loadCache (some "garbage") failParse = [] ∧
      (processSingleFile demoDoc "f" "es" true false []
          demoOracle).requests.flatten
        = dedupFirst ((flattenObjectWithPaths demoDoc).map Prod.snd) ∧
      (SafeDoc demoDoc = true →
        ((processSingleFile demoDoc "f" "es" true false []
          demoOracle).output).isSome = true)) ∧
    ((processSingleFile demoDoc "f" "es" true false []
        demoOracle).output).isSome = true :=
  ⟨rfl, cache_load_failure_empty failParse "garbage" rfl demoDoc "f" "es"
    demoOracle,
    (cache_load_failure_empty failParse "garbage" rfl demoDoc "f" "es"
      demoOracle).2.2.2 (by decide)⟩

/-- Counterexample for C5 as stated: with the cache load failed (empty
cache), the run over `{"a": {"[0]": {"b": "x"}}}` does not proceed
normally — the rebuild's root navigation reads `parent[parseInt("0")]`
on an object with no key `"0"`, gets `undefined`, and the assignment
throws, so the run aborts with no output. -/
theorem cache_load_failure_empty_cex :
    loadCache (some "garbage") failParse = [] ∧
    (processSingleFile bracketNest "f" "es" true false []
        demoOracle).output = none :=
  ⟨rfl, rfl⟩

/-! ## Claim C9 -/

theorem restore_map_ch (spans : List (List Char)) (l : List Char) :
    restoreFormats spans (l.map Sym.ch) = l := by
  induction l with
  | nil => rfl
  | cons c rest ih => simp [restoreFormats, ih]

theorem takeWhile_drop_eq (p : Char → Bool) (l : List Char) :
    l.takeWhile p ++ l.drop (l.takeWhile p).length = l := by
  induction l with
  | nil => rfl
  | cons c rest ih =>
      by_cases hc : p c
      · simp only [List.takeWhile_cons, hc, if_pos, List.length_cons,
          List.cons_append, List.drop_succ_cons]
        rw [ih]
      · simp [List.takeWhile_cons, hc]

theorem getD_append_len {α : Type} (pre : List α) (x : α) (t : List α)
    (d : α) : (pre ++ x :: t).getD pre.length d = x := by
  induction pre with
  | nil => rfl
  | cons y ys ih => simpa using ih

theorem drop_takeWhile_length (p : Char → Bool) (l : List Char) :
    l.drop (l.takeWhile p).length = l.dropWhile p := by
  induction l with
  | nil => rfl
  | cons c rest ih =>
      by_cases hc : p c
      · simp [List.takeWhile_cons, List.dropWhile_cons, hc, ih]
      · simp [List.takeWhile_cons, List.dropWhile_cons, hc]

theorem dropWhile_head_false (p : Char → Bool) (l : List Char)
    (c2 : Char) (rest2 : List Char) (h : l.dropWhile p = c2 :: rest2) :
    p c2 = false := by
  induction l with
  | nil => simp [List.dropWhile] at h
  | cons c rest ih =>
      by_cases hc : p c
      · rw [List.dropWhile_cons, if_pos hc] at h
        exact ih h
      · rw [List.dropWhile_cons, if_neg hc] at h
        cases h
        exact Bool.not_eq_true _ ▸ (by simpa using hc)

/-- When `braceSplit` finds a closing brace, the input decomposes exactly
as span-then-brace-then-remainder. -/
theorem braceSplit_some (rest inner rest2 : List Char)
    (h : braceSplit rest = some (inner, rest2)) :
    inner = rest.takeWhile (fun c2 => ¬(c2 = '}')) ∧
      rest = inner ++ '}' :: rest2 := by
  rw [braceSplit] at h
  rcases hd : rest.drop
      (rest.takeWhile (fun c2 => ¬(c2 = '}'))).length with _ | ⟨c2, r2⟩
  · rw [hd] at h
    simp at h
  · rw [hd] at h
    simp only [Option.some.injEq, Prod.mk.injEq] at h
    obtain ⟨h1, h2⟩ := h
    refine ⟨h1.symm, ?_⟩
    have hdw : rest.dropWhile (fun c2 => ¬(c2 = '}')) = c2 :: r2 := by
      rw [← drop_takeWhile_length]
      exact hd
    have hc2 : c2 = '}' := by
      have := dropWhile_head_false _ _ _ _ hdw
      simpa using this
    have hsplit := takeWhile_drop_eq (fun c2 => ¬(c2 = '}')) rest
    rw [hd, hc2] at hsplit
    rw [← h1, ← h2]
    exact hsplit.symm

/-- The protect scan, restored against its own recorded spans prefixed by
any already-collected spans, reproduces the input exactly. -/
theorem protectAux_roundtrip (fuel : Nat) :
    ∀ (n : Nat) (l : List Char) (pre : List (List Char)),
      pre.length = n →
      restoreFormats (pre ++ (protectAux fuel n l).2)
        (protectAux fuel n l).1 = l := by
  induction fuel with
  | zero =>
      intro n l pre hn
      simp [protectAux, restore_map_ch]
  | succ f ih =>
      intro n l pre hn
      cases l with
      | nil => simp [protectAux, restoreFormats]
      | cons c rest =>
          rw [protectAux]
          by_cases hc : c = '{'
          · rw [if_pos hc]
            rcases hb : braceSplit rest with _ | ⟨inner, rest2⟩
            · simp only [hb, restoreFormats]
              rw [ih n rest pre hn]
            · obtain ⟨hinner, hrest⟩ := braceSplit_some rest inner rest2 hb
              simp only [hb, restoreFormats]
              have hspan :
                  (pre ++ ('{' :: (inner ++ ['}'])) ::
                      (protectAux f (n + 1) rest2).2).getD n []
                    = '{' :: (inner ++ ['}']) := by
                rw [← hn]
                exact getD_append_len pre _ _ []
              have htail : restoreFormats
                  (pre ++ ('{' :: (inner ++ ['}'])) ::
                      (protectAux f (n + 1) rest2).2)
                  (protectAux f (n + 1) rest2).1 = rest2 := by
                have := ih (n + 1) rest2 (pre ++ ['{' :: (inner ++ ['}'])])
                  (by simp [hn])
                simpa [List.append_assoc] using this
              rw [hspan, htail, hc, hrest]
              simp
          · rw [if_neg hc]
            simp only [restoreFormats]
            rw [ih n rest pre hn]

/-- C9: `restoreFormats` applied to the output of `preserveFormats` (no
sentinel lost) reproduces the input string exactly, substituting each
original span back in order. -/
theorem preserveFormats_roundtrip (s : List Char) :
    restoreFormats (preserveFormats s).2 (preserveFormats s).1 = s := by
  have h := protectAux_roundtrip s.length 0 s [] rfl
  simpa [preserveFormats] using h

/-! ## Run-characterisation lemmas -/

theorem processSingleFile_requests (doc : Json) (filePath lang : String)
    (useCache : Bool) (cacheLoaded : Cache)
    (oracle : List String → Option (List String)) :
    (processSingleFile doc filePath lang useCache false cacheLoaded
        oracle).requests
      = singleBatches (singleSplit doc filePath lang useCache cacheLoaded).2 :=
  rfl

theorem processSingleFile_translations (doc : Json) (filePath lang : String)
    (useCache : Bool) (cacheLoaded : Cache)
    (oracle : List String → Option (List String)) :
    (processSingleFile doc filePath lang useCache false cacheLoaded
        oracle).translations
      = mkMap ((singleSplit doc filePath lang useCache cacheLoaded).1 ++
          newPairsOf oracle (singleBatches
            (singleSplit doc filePath lang useCache cacheLoaded).2)) :=
  rfl

theorem processSingleFile_output (doc : Json) (filePath lang : String)
    (useCache : Bool) (cacheLoaded : Cache)
    (oracle : List String → Option (List String)) :
    (processSingleFile doc filePath lang useCache false cacheLoaded
        oracle).output
      = applyTranslations (flattenObjectWithPaths doc)
          (processSingleFile doc filePath lang useCache false cacheLoaded
            oracle).translations doc :=
  rfl

theorem processMultipleFiles_requests (files : List (String × Json))
    (lang : String) (useCache : Bool) (cacheLoaded : Cache)
    (oracle : List String → Option (List String)) :
    (processMultipleFiles files lang useCache false cacheLoaded
        oracle).requests
      = multiBatches (multiSplitRun files lang useCache cacheLoaded).2 :=
  rfl

theorem processMultipleFiles_translations (files : List (String × Json))
    (lang : String) (useCache : Bool) (cacheLoaded : Cache)
    (oracle : List String → Option (List String)) :
    (processMultipleFiles files lang useCache false cacheLoaded
        oracle).globalTranslations
      = mkMap ((multiSplitRun files lang useCache cacheLoaded).1 ++
          newPairsOf oracle (multiBatches
            (multiSplitRun files lang useCache cacheLoaded).2)) :=
  rfl

theorem processMultipleFiles_outputs (files : List (String × Json))
    (lang : String) (useCache : Bool) (cacheLoaded : Cache)
    (oracle : List String → Option (List String)) :
    (processMultipleFiles files lang useCache false cacheLoaded
        oracle).outputs
      = rebuildOutputs
          (processMultipleFiles files lang useCache false cacheLoaded
            oracle).globalTranslations files :=
  rfl

/-! ## Claim C3 -/

theorem mem_of_getElem_opt {α : Type} (l : List α) (i : Nat) (a : α)
    (h : l[i]? = some a) : a ∈ l := by
  induction l generalizing i with
  | nil => simp at h
  | cons x xs ih =>
      cases i with
      | zero =>
          simp only [List.getElem?_cons_zero, Option.some.injEq] at h
          simp [h]
      | succ j =>
          simp only [List.getElem?_cons_succ] at h
          exact List.mem_cons_of_mem _ (ih j h)

/-- Each entry of the structural rebuild is the source entry with its
value put through `replaceVal`. -/
theorem out_entry (d : Json) (M : List (String × String)) (i : Nat)
    (k s : String) (he : (flattenEntries d)[i]? = some (k, s)) :
    (flattenEntries (applyStruct (flattenObjectWithPaths d) M d))[i]?
      = some (k, replaceVal (flattenObjectWithPaths d) M k s) := by
  rw [flattenEntries_applyStruct, List.getElem?_map, he]
  rfl

/-- C3 (corrected): over a collision-free, navigation-safe document (no
two leaves share an encoded path, no object key is bracket-shaped or
repeated) reconstruction completes and keeps the tree structure, applying
the empty mapping returns the document unchanged (unconditionally), every
leaf whose string is covered by the mapping with a non-empty value
becomes exactly that value, and every other leaf (not covered, or mapped
to the empty string, which the code treats as falsy) keeps its original
value. -/
theorem reconstruction_exact (d : Json) (M : List (String × String))
    (hn : NoCollide d) (hsafe : SafeDoc d = true) :
    (∃ out, applyTranslations (flattenObjectWithPaths d) M d = some out ∧
      shapeJ out = shapeJ d ∧
      (∀ (i : Nat) (k s t : String), (flattenEntries d)[i]? = some (k, s) →
        getAssoc M (hashString s) = some t → ¬(t = "") →
        (flattenEntries out)[i]? = some (k, t)) ∧
      (∀ (i : Nat) (k s : String), (flattenEntries d)[i]? = some (k, s) →
        getAssoc M (hashString s) = none →
        (flattenEntries out)[i]? = some (k, s)) ∧
      (∀ (i : Nat) (k s : String), (flattenEntries d)[i]? = some (k, s) →
        getAssoc M (hashString s) = some "" →
        (flattenEntries out)[i]? = some (k, s))) ∧
    applyTranslations (flattenObjectWithPaths d) [] d = some d := by
  refine ⟨⟨applyStruct (flattenObjectWithPaths d) M d,
    applyTranslations_safe _ M d hsafe, shape_applyJ _ M [] d,
    ?_, ?_, ?_⟩, ?_⟩
  · intro i k s t he hm ht
    rw [out_entry d M i k s he]
    have hsrc := srcMap_resolves d hn k s (mem_of_getElem_opt _ i _ he)
    simp [replaceVal, hsrc, hm, ht]
  · intro i k s he hm
    rw [out_entry d M i k s he]
    have hsrc := srcMap_resolves d hn k s (mem_of_getElem_opt _ i _ he)
    simp [replaceVal, hsrc, hm]
  · intro i k s he hm
    rw [out_entry d M i k s he]
    have hsrc := srcMap_resolves d hn k s (mem_of_getElem_opt _ i _ he)
    simp [replaceVal, hsrc, hm]
  · rw [applyTranslations_safe _ [] d hsafe]
    show some (applyJ (flattenObjectWithPaths d) [] [] d) = some d
    rw [applyJ_empty]

/-- Witness for C3's amended theorem on the spec's concrete document. -/
theorem reconstruction_exact_witness :
    NoCollide demoDoc ∧ SafeDoc demoDoc = true ∧
    ((∃ out, applyTranslations (flattenObjectWithPaths demoDoc)
        [("Hello", "Hola")] demoDoc = some out ∧
      shapeJ out = shapeJ demoDoc ∧
      (∀ (i : Nat) (k s t : String),
        (flattenEntries demoDoc)[i]? = some (k, s) →
        getAssoc [("Hello", "Hola")] (hashString s) = some t → ¬(t = "") →
        (flattenEntries out)[i]? = some (k, t)) ∧
      (∀ (i : Nat) (k s : String),
        (flattenEntries demoDoc)[i]? = some (k, s) →
        getAssoc [("Hello", "Hola")] (hashString s) = none →
        (flattenEntries out)[i]? = some (k, s)) ∧
      (∀ (i : Nat) (k s : String),
        (flattenEntries demoDoc)[i]? = some (k, s) →
        getAssoc [("Hello", "Hola")] (hashString s) = some "" →
        (flattenEntries out)[i]? = some (k, s))) ∧
    applyTranslations (flattenObjectWithPaths demoDoc) [] demoDoc
      = some demoDoc) :=
  ⟨by decide, by decide,
    reconstruction_exact demoDoc [("Hello", "Hola")] (by decide) (by decide)⟩

/-- Counterexample for C3 as stated, two mechanisms.  Bracket-shaped
object key: in `{"[0]": "hello"}` with the mapping `{"hello" -> "hola"}`
the write-back for the covered leaf goes through `parseInt("0")` and
lands on the fresh key `"0"`, so the output `{"[0]": "hello",
"0": "hola"}` leaves the covered leaf unchanged and is not structurally
identical to the input (the program serialises the integer-like key
first, `{"0": "hola", "[0]": "hello"}`; the model keeps insertion order).
Path collision: in `{"a.b": "X", "a\x01b": "Y"}` both leaves encode to
the same flattened path, so the mapping `{"Y" -> "Z"}` also overwrites
the leaf `"X"` that it does not cover; and a leaf mapped to the empty
string keeps its original value instead of the mapped one. -/
theorem reconstruction_cex :
    applyTranslations (flattenObjectWithPaths bracketLeafDoc)
        [("hello", "hola")] bracketLeafDoc
      = some (Json.obj (.cons "[0]" (.str "hello")
          (.cons "0" (.str "hola") .nil))) ∧
    getAssoc [("hello", "hola")] (hashString "hello") = some "hola" ∧
    ¬(shapeJ (Json.obj (.cons "[0]" (.str "hello")
        (.cons "0" (.str "hola") .nil))) = shapeJ bracketLeafDoc) ∧
    applyTranslations
        (flattenObjectWithPaths
          (Json.obj (.cons "a.b" (.str "X")
            (.cons "a\x01b" (.str "Y") .nil))))
        [("Y", "Z")]
        (Json.obj (.cons "a.b" (.str "X")
          (.cons "a\x01b" (.str "Y") .nil)))
      = some (Json.obj (.cons "a.b" (.str "Z")
          (.cons "a\x01b" (.str "Z") .nil))) ∧
    getAssoc [("Y", "Z")] (hashString "X") = none ∧
    applyTranslations
        (flattenObjectWithPaths (Json.obj (.cons "k" (.str "W") .nil)))
        [("W", "")]
        (Json.obj (.cons "k" (.str "W") .nil))
      = some (Json.obj (.cons "k" (.str "W") .nil)) ∧
    getAssoc [("W", "")] (hashString "W") = some "" := by
  refine ⟨rfl, rfl, ?_, rfl, rfl, rfl, rfl⟩
  intro h
  simp [shapeJ, shapeO, bracketLeafDoc] at h

/-! ## Claim C1: supporting lemmas -/

theorem singleBatches_count (l : List String) (s : String) :
    ((singleBatches l).map (fun b => b.count s)).sum = l.count s := by
  cases l with
  | nil => rfl
  | cons x xs =>
      exact chunkAux_count _ _ _ _ (dynamicBatchSize_pos _ (by simp)) le_rfl

theorem multiBatches_count (l : List String) (s : String) :
    ((multiBatches l).map (fun b => b.count s)).sum = l.count s := by
  cases l with
  | nil => rfl
  | cons x xs => exact chunkAux_count _ _ _ _ MAX_BATCH_SIZE_pos le_rfl

theorem cacheSplit_sublist (lc : LangCache) (l : List String) :
    (cacheSplit lc l).2.Sublist l := by
  induction l with
  | nil => simp [cacheSplit]
  | cons x xs ih =>
      rw [cacheSplit]
      rcases hlc : getAssoc lc (hashString x) with _ | t
      · simpa [hlc] using List.Sublist.cons₂ x ih
      · by_cases ht : t = ""
        · simpa [hlc, ht] using List.Sublist.cons₂ x ih
        · simpa [hlc, ht] using List.Sublist.cons x ih

theorem singleSplit_nodup (doc : Json) (filePath lang : String)
    (useCache : Bool) (cacheLoaded : Cache) :
    (singleSplit doc filePath lang useCache cacheLoaded).2.Nodup := by
  rw [singleSplit]
  by_cases h : useCache
  · rw [if_pos h]
    exact List.Nodup.sublist (cacheSplit_sublist _ _)
      (nodup_dedupFirst _)
  · rw [if_neg h]
    exact nodup_dedupFirst _

theorem keys_addOccur (m : List (String × List String)) (s f : String) :
    (addOccur m s f).map Prod.fst =
      if s ∈ m.map Prod.fst then m.map Prod.fst
      else m.map Prod.fst ++ [s] := by
  induction m with
  | nil => simp [addOccur]
  | cons p rest ih =>
      obtain ⟨s', fs⟩ := p
      by_cases hp : s' = s
      · simp [addOccur, hp]
      · have hps : ¬(s = s') := fun he => hp he.symm
        simp only [addOccur, if_neg hp, List.map_cons, List.mem_cons, ih]
        by_cases hmem : s ∈ rest.map Prod.fst
        · simp [hmem, hps]
        · simp [hmem, hps]

theorem nodup_addOccur (m : List (String × List String)) (s f : String)
    (hm : (m.map Prod.fst).Nodup) :
    ((addOccur m s f).map Prod.fst).Nodup := by
  rw [keys_addOccur]
  by_cases hmem : s ∈ m.map Prod.fst
  · rwa [if_pos hmem]
  · rw [if_neg hmem]
    rw [List.nodup_append]
    exact ⟨hm, List.nodup_singleton s, by simpa using hmem⟩

theorem nodup_foldl_addOccur (strs : List String) (f : String)
    (m : List (String × List String)) (hm : (m.map Prod.fst).Nodup) :
    (((strs.foldl (fun m s => addOccur m s f) m)).map Prod.fst).Nodup := by
  induction strs generalizing m with
  | nil => exact hm
  | cons x xs ih => exact ih _ (nodup_addOccur m x f hm)

theorem nodup_globalStringMap (files : List (String × Json)) :
    ((globalStringMap files).map Prod.fst).Nodup := by
  rw [globalStringMap]
  have hgen : ∀ (fs : List (String × Json)) (m : List (String × List String)),
      (m.map Prod.fst).Nodup →
      ((fs.foldl
        (fun m fd =>
          ((flattenObjectWithPaths fd.2).map Prod.snd).foldl
            (fun m s => addOccur m s fd.1) m)
        m).map Prod.fst).Nodup := by
    intro fs
    induction fs with
    | nil => intro m hm; exact hm
    | cons fd rest ih =>
        intro m hm
        exact ih _ (nodup_foldl_addOccur _ _ m hm)
  exact hgen files [] (by simp)

theorem multiSplit_sublist (c : Cache) (lang : String)
    (gsm : List (String × List String)) :
    (multiSplit c lang gsm).2.Sublist (gsm.map Prod.fst) := by
  induction gsm with
  | nil => simp [multiSplit]
  | cons p rest ih =>
      obtain ⟨s, fs⟩ := p
      rw [multiSplit]
      rcases hf : findCachedIn c lang (hashString s) fs with _ | t
      · simpa [hf] using List.Sublist.cons₂ s ih
      · simpa [hf] using List.Sublist.cons s ih

theorem multiSplitRun_nodup (files : List (String × Json)) (lang : String)
    (useCache : Bool) (cacheLoaded : Cache) :
    (multiSplitRun files lang useCache cacheLoaded).2.Nodup := by
  rw [multiSplitRun]
  by_cases h : useCache
  · rw [if_pos h]
    exact List.Nodup.sublist (multiSplit_sublist _ _ _)
      (nodup_globalStringMap files)
  · rw [if_neg h]
    exact nodup_globalStringMap files

theorem replaceVal_congr2 (m1 m2 tr : List (String × String))
    (k1 k2 s : String) (h1 : getAssoc m1 k1 = some s)
    (h2 : getAssoc m2 k2 = some s) :
    replaceVal m1 tr k1 s = replaceVal m2 tr k2 s := by
  rw [replaceVal, replaceVal, h1, h2]

/-- C1 (corrected): in non-dry runs of both processing paths, every
string occurs at most once across all outbound batch requests
(deduplication is unconditional); and over collision-free,
navigation-safe documents (no bracket-shaped or repeated object keys),
the runs produce their outputs and any two occurrences of the same leaf
string — within one document or across documents of a multi-file run —
receive the identical value in the rebuilt outputs. -/
theorem dedup_translate_once
    (doc : Json) (files : List (String × Json)) (filePath lang : String)
    (useCache : Bool) (cacheLoaded : Cache)
    (oracle : List String → Option (List String)) (s : String)
    (i j : Nat) (k1 k2 : String)
    (hn : NoCollide doc) (hsafe : SafeDoc doc = true)
    (hi : (flattenEntries doc)[i]? = some (k1, s))
    (hj : (flattenEntries doc)[j]? = some (k2, s))
    (f1 f2 : String) (d1 d2 : Json)
    (h1 : (f1, d1) ∈ files) (h2 : (f2, d2) ∈ files)
    (hall : ∀ fd ∈ files, SafeDoc fd.2 = true)
    (hn1 : NoCollide d1) (hn2 : NoCollide d2)
    (i2 j2 : Nat) (k3 k4 : String)
    (hi2 : (flattenEntries d1)[i2]? = some (k3, s))
    (hj2 : (flattenEntries d2)[j2]? = some (k4, s)) :
    ((processSingleFile doc filePath lang useCache false cacheLoaded
        oracle).requests.map (fun b => b.count s)).sum ≤ 1 ∧
    ((processMultipleFiles files lang useCache false cacheLoaded
        oracle).requests.map (fun b => b.count s)).sum ≤ 1 ∧
    (∃ out, (processSingleFile doc filePath lang useCache false cacheLoaded
        oracle).output = some out ∧
      ∃ v, (flattenEntries out)[i]? = some (k1, v) ∧
        (flattenEntries out)[j]? = some (k2, v)) ∧
    (∃ out1 out2,
      (f1, out1) ∈ (processMultipleFiles files lang useCache false
        cacheLoaded oracle).outputs ∧
      (f2, out2) ∈ (processMultipleFiles files lang useCache false
        cacheLoaded oracle).outputs ∧
      ∃ v, (flattenEntries out1)[i2]? = some (k3, v) ∧
        (flattenEntries out2)[j2]? = some (k4, v)) := by
  refine ⟨?_, ?_, ?_, ?_⟩
  · rw [processSingleFile_requests, singleBatches_count]
    exact List.nodup_iff_count_le_one.mp
      (singleSplit_nodup doc filePath lang useCache cacheLoaded) s
  · rw [processMultipleFiles_requests, multiBatches_count]
    exact List.nodup_iff_count_le_one.mp
      (multiSplitRun_nodup files lang useCache cacheLoaded) s
  · refine ⟨applyStruct (flattenObjectWithPaths doc)
      (processSingleFile doc filePath lang useCache false cacheLoaded
        oracle).translations doc, ?_, ?_⟩
    · rw [processSingleFile_output]
      exact applyTranslations_safe _ _ doc hsafe
    · refine ⟨replaceVal (flattenObjectWithPaths doc)
        (processSingleFile doc filePath lang useCache false cacheLoaded
          oracle).translations k1 s, ?_, ?_⟩
      · exact out_entry doc _ i k1 s hi
      · rw [out_entry doc _ j k2 s hj]
        rw [replaceVal_congr2 _ _ _ k2 k1 s
          (srcMap_resolves doc hn k2 s (mem_of_getElem_opt _ j _ hj))
          (srcMap_resolves doc hn k1 s (mem_of_getElem_opt _ i _ hi))]
  · refine ⟨applyStruct (flattenObjectWithPaths d1)
      (processMultipleFiles files lang useCache false cacheLoaded
        oracle).globalTranslations d1,
      applyStruct (flattenObjectWithPaths d2)
        (processMultipleFiles files lang useCache false cacheLoaded
          oracle).globalTranslations d2, ?_, ?_, ?_⟩
    · rw [processMultipleFiles_outputs, rebuildOutputs_safe _ files hall]
      exact List.mem_map.mpr ⟨(f1, d1), h1, rfl⟩
    · rw [processMultipleFiles_outputs, rebuildOutputs_safe _ files hall]
      exact List.mem_map.mpr ⟨(f2, d2), h2, rfl⟩
    · refine ⟨replaceVal (flattenObjectWithPaths d1)
        (processMultipleFiles files lang useCache false cacheLoaded
          oracle).globalTranslations k3 s, ?_, ?_⟩
      · exact out_entry d1 _ i2 k3 s hi2
      · rw [out_entry d2 _ j2 k4 s hj2]
        rw [replaceVal_congr2 _ _ _ k4 k3 s
          (srcMap_resolves d2 hn2 k4 s (mem_of_getElem_opt _ j2 _ hj2))
          (srcMap_resolves d1 hn1 k3 s (mem_of_getElem_opt _ i2 _ hi2))]

/-- Witness for C1's amended theorem: the spec's scenario documents
(`demoDoc` repeats `"Hello"` internally, `demoDoc2` shares it), with the
single-file run on `demoDoc` and the multi-file run over both. -/
theorem dedup_translate_once_witness :
    NoCollide demoDoc ∧ SafeDoc demoDoc = true ∧
    (flattenEntries demoDoc)[0]? = some ("a", "Hello") ∧
    (flattenEntries demoDoc)[1]? = some ("b\x00c", "Hello") ∧
    ("f1", demoDoc) ∈ [("f1", demoDoc), ("f2", demoDoc2)] ∧
    ("f2", demoDoc2) ∈ [("f1", demoDoc), ("f2", demoDoc2)] ∧
    NoCollide demoDoc2 ∧
    (flattenEntries demoDoc2)[0]? = some ("x", "Hello") ∧
    (((processSingleFile demoDoc "f" "es" true false []
        demoOracle).requests.map (fun b => b.count "Hello")).sum ≤ 1 ∧
      ((processMultipleFiles [("f1", demoDoc), ("f2", demoDoc2)] "es" true
          false [] demoOracle).requests.map
        (fun b => b.count "Hello")).sum ≤ 1 ∧
      (∃ out, (processSingleFile demoDoc "f" "es" true false []
          demoOracle).output = some out ∧
        ∃ v, (flattenEntries out)[0]? = some ("a", v) ∧
          (flattenEntries out)[1]? = some ("b\x00c", v)) ∧
      (∃ out1 out2,
        ("f1", out1) ∈ (processMultipleFiles
          [("f1", demoDoc), ("f2", demoDoc2)] "es" true false []
          demoOracle).outputs ∧
        ("f2", out2) ∈ (processMultipleFiles
          [("f1", demoDoc), ("f2", demoDoc2)] "es" true false []
          demoOracle).outputs ∧
        ∃ v, (flattenEntries out1)[0]? = some ("a", v) ∧
          (flattenEntries out2)[0]? = some ("x", v))) :=
  ⟨by decide, by decide, by decide, by decide, List.mem_cons_self _ _,
    List.mem_cons_of_mem _ (List.mem_cons_self _ _), by decide,
    by decide,
    dedup_translate_once demoDoc [("f1", demoDoc), ("f2", demoDoc2)]
      "f" "es" true [] demoOracle "Hello" 0 1 "a" "b\x00c" (by decide)
      (by decide) (by decide) (by decide) "f1" "f2" demoDoc demoDoc2
      (List.mem_cons_self _ _)
      (List.mem_cons_of_mem _ (List.mem_cons_self _ _))
      (by
        intro fd hfd
        simp only [List.mem_cons, List.mem_singleton] at hfd
        rcases hfd with rfl | rfl | h
        · decide
        · decide
        · simp at h)
      (by decide) (by decide) 0 0 "a" "x" (by decide) (by decide)⟩

set_option maxRecDepth 10000 in
/-- Counterexample for C1 as stated, two mechanisms.  Bracket-shaped
object key: the collision-free document `{"[0]": "S", "q": "S"}` repeats
`"S"`, the run requests it once, yet the rebuild writes its translation
through `parseInt("0")` onto the fresh key `"0"`, so the two original
occurrences come out as `"S"` (untranslated) and `"S!"` — not the
identical value (output `{"[0]": "S", "q": "S!", "0": "S!"}`, which the
program serialises with the integer-like key first).  Path collision: in
`{"a.b": "S", "a\x01b": "T", "q": "S"}` the two occurrences of `"S"`
come out as `"T!"` (the collision partner's translation) and `"S!"`. -/
theorem dedup_translate_once_cex :
    NoCollide bracketDoc ∧
    ((flattenEntries bracketDoc)[0]?).map Prod.snd = some "S" ∧
    ((flattenEntries bracketDoc)[1]?).map Prod.snd = some "S" ∧
    (processSingleFile bracketDoc "f" "es" false false []
        demoOracle).output
      = some (Json.obj (.cons "[0]" (.str "S")
          (.cons "q" (.str "S!") (.cons "0" (.str "S!") .nil)))) ∧
    ((flattenEntries collideDoc)[0]?).map Prod.snd = some "S" ∧
    ((flattenEntries collideDoc)[2]?).map Prod.snd = some "S" ∧
    Option.map (fun out => ((flattenEntries out)[0]?).map Prod.snd)
      (processSingleFile collideDoc "f" "es" false false []
        demoOracle).output = some (some "T!") ∧
    Option.map (fun out => ((flattenEntries out)[2]?).map Prod.snd)
      (processSingleFile collideDoc "f" "es" false false []
        demoOracle).output = some (some "S!") :=
  ⟨by decide, rfl, rfl, rfl, rfl, rfl, rfl, rfl⟩

/-! ## Claim C4: supporting lemmas -/

theorem callTranslate_some (oracle : List String → Option (List String))
    (b ts : List String) (h : callTranslate oracle b = some ts) :
    oracle b = some ts ∧ validateResponse b ts = true := by
  rw [callTranslate] at h
  split at h
  · exact absurd h (by simp)
  · next ts0 heq =>
      split at h
      · next hv =>
          obtain rfl : ts0 = ts := Option.some.inj h
          exact ⟨heq, hv⟩
      · exact absurd h (by simp)

theorem validateResponse_length (b ts : List String)
    (h : validateResponse b ts = true) : ts.length = b.length := by
  rw [validateResponse, Bool.and_eq_true] at h
  have h1 := h.1
  simpa using h1

theorem translateBatch_of_fail (oracle : List String → Option (List String))
    (b : List String) (h : callTranslate oracle b = none) :
    translateBatch oracle b = [] := by
  rw [translateBatch, h]

theorem translateBatch_fst_sublist
    (oracle : List String → Option (List String)) (b : List String) :
    ((translateBatch oracle b).map Prod.fst).Sublist b := by
  rw [translateBatch]
  rcases hct : callTranslate oracle b with _ | ts
  · simp
  · obtain ⟨ho, hv⟩ := callTranslate_some oracle b ts hct
    have hlen : b.length ≤ ts.length :=
      le_of_eq (validateResponse_length b ts hv).symm
    have hsub : (((b.zip ts).filter
        (fun p => ¬(p.2 = ""))).map Prod.fst).Sublist
          ((b.zip ts).map Prod.fst) :=
      List.Sublist.map Prod.fst (List.filter_sublist _)
    rwa [List.map_fst_zip b ts hlen] at hsub

theorem newPairsOf_nil (oracle : List String → Option (List String)) :
    newPairsOf oracle [] = [] := rfl

theorem newPairsOf_cons (oracle : List String → Option (List String))
    (c : List String) (rest : List (List String)) :
    newPairsOf oracle (c :: rest) =
      (translateBatch oracle c).map (fun p => (hashString p.1, p.2)) ++
        newPairsOf oracle rest := by
  simp [newPairsOf]

theorem newPairsOf_keys (oracle : List String → Option (List String))
    (bs : List (List String)) :
    (newPairsOf oracle bs).map Prod.fst =
      bs.flatMap (fun c => (translateBatch oracle c).map Prod.fst) := by
  induction bs with
  | nil => rfl
  | cons c rest ih =>
      rw [newPairsOf_cons, List.map_append, ih, List.flatMap_cons]
      congr 1
      simp [hashString]

theorem mem_newPairsOf_keys (oracle : List String → Option (List String))
    (bs : List (List String)) (s : String)
    (h : s ∈ (newPairsOf oracle bs).map Prod.fst) :
    ∃ c ∈ bs, s ∈ (translateBatch oracle c).map Prod.fst := by
  rw [newPairsOf_keys] at h
  simpa using List.mem_flatMap.mp h

theorem count_le_sum_of_mem (bs : List (List String)) (b : List String)
    (s : String) (hb : b ∈ bs) :
    b.count s ≤ (bs.map (fun c => c.count s)).sum := by
  induction bs with
  | nil => simp at hb
  | cons c rest ih =>
      rcases List.mem_cons.mp hb with h | h
      · rw [h]
        simp
      · calc b.count s ≤ (rest.map (fun c => c.count s)).sum := ih h
          _ ≤ ((c :: rest).map (fun c => c.count s)).sum := by simp

/-- Two different member lists both containing `s` force a total count of
at least two. -/
theorem two_le_sum_counts (bs : List (List String)) (s : String)
    (b c : List String) (hb : b ∈ bs) (hc : c ∈ bs) (hbc : ¬(c = b))
    (hs : s ∈ b) (hsc : s ∈ c) :
    2 ≤ (bs.map (fun x => x.count s)).sum := by
  induction bs with
  | nil => simp at hb
  | cons x rest ih =>
      rcases List.mem_cons.mp hb with hbx | hbr
      · rcases List.mem_cons.mp hc with hcx | hcr
        · exact absurd (hcx.trans hbx.symm) hbc
        · have h1 : 0 < x.count s := by
            rw [hbx] at hs
            exact List.count_pos_iff.mpr hs
          have h2 : 0 < (rest.map (fun x => x.count s)).sum := by
            calc 0 < c.count s := List.count_pos_iff.mpr hsc
              _ ≤ _ := count_le_sum_of_mem rest c s hcr
          simp only [List.map_cons, List.sum_cons]
          omega
      · rcases List.mem_cons.mp hc with hcx | hcr
        · have h1 : 0 < x.count s := by
            rw [hcx] at hsc
            exact List.count_pos_iff.mpr hsc
          have h2 : 0 < (rest.map (fun x => x.count s)).sum := by
            calc 0 < b.count s := List.count_pos_iff.mpr hs
              _ ≤ _ := count_le_sum_of_mem rest b s hbr
          simp only [List.map_cons, List.sum_cons]
          omega
        · calc 2 ≤ (rest.map (fun x => x.count s)).sum := ih hbr hcr
            _ ≤ _ := by simp

/-- A string of a failed batch never enters the merged new-translation
pairs, provided it occurs at most once across all batches. -/
theorem notin_newPairs (oracle : List String → Option (List String))
    (bs : List (List String)) (s : String) (b : List String)
    (hb : b ∈ bs) (hs : s ∈ b) (hfail : callTranslate oracle b = none)
    (hcount : ((bs.map (fun c => c.count s)).sum) ≤ 1) :
    s ∉ (newPairsOf oracle bs).map Prod.fst := by
  intro hmem
  obtain ⟨c, hc, hsc⟩ := mem_newPairsOf_keys oracle bs s hmem
  have hsc2 : s ∈ c := (translateBatch_fst_sublist oracle c).subset hsc
  have htb : translateBatch oracle c ≠ [] := by
    intro hnil
    rw [hnil] at hsc
    simp at hsc
  have hcfail : ¬(c = b) := by
    intro he
    exact htb (he ▸ translateBatch_of_fail oracle b hfail)
  have := two_le_sum_counts bs s b c hb hc hcfail hs hsc2
  omega

theorem multiSplit_perm (c : Cache) (lang : String)
    (gsm : List (String × List String)) :
    ((multiSplit c lang gsm).1.map Prod.fst ++
      (multiSplit c lang gsm).2).Perm (gsm.map Prod.fst) := by
  induction gsm with
  | nil => simp [multiSplit]
  | cons p rest ih =>
      obtain ⟨s, fs⟩ := p
      rw [multiSplit]
      rcases hf : findCachedIn c lang (hashString s) fs with _ | t
      · simp only [hf, List.map_cons]
        refine List.Perm.trans ?_ (List.Perm.cons s ih)
        exact @List.perm_middle _ s ((multiSplit c lang rest).1.map Prod.fst)
          ((multiSplit c lang rest).2)
      · simp only [hf, List.map_cons, List.cons_append, hashString]
        exact List.Perm.cons s ih

theorem multiSplitRun_combined_nodup (files : List (String × Json))
    (lang : String) (useCache : Bool) (cacheLoaded : Cache) :
    (((multiSplitRun files lang useCache cacheLoaded).1.map Prod.fst) ++
      (multiSplitRun files lang useCache cacheLoaded).2).Nodup := by
  rw [multiSplitRun]
  by_cases h : useCache
  · rw [if_pos h]
    exact (multiSplit_perm cacheLoaded lang (globalStringMap files)).nodup_iff.mpr
      (nodup_globalStringMap files)
  · rw [if_neg h]
    simpa using nodup_globalStringMap files

theorem flatMap_sublist_flatten (bs : List (List String))
    (f : List String → List String) (hf : ∀ c, (f c).Sublist c) :
    (bs.flatMap f).Sublist bs.flatten := by
  induction bs with
  | nil => simp
  | cons c rest ih =>
      rw [List.flatMap_cons, List.flatten_cons]
      exact List.Sublist.append (hf c) ih

theorem newPairs_keys_sublist (oracle : List String → Option (List String))
    (m : List String) :
    ((newPairsOf oracle (multiBatches m)).map Prod.fst).Sublist m := by
  rw [newPairsOf_keys]
  have h := flatMap_sublist_flatten (multiBatches m) _
    (fun c => translateBatch_fst_sublist oracle c)
  rwa [multiBatches_flatten] at h

theorem runKeys_nodup (files : List (String × Json)) (lang : String)
    (useCache : Bool) (cacheLoaded : Cache)
    (oracle : List String → Option (List String)) :
    (((multiSplitRun files lang useCache cacheLoaded).1 ++
      newPairsOf oracle (multiBatches
        (multiSplitRun files lang useCache cacheLoaded).2)).map
      Prod.fst).Nodup := by
  have hcomb := multiSplitRun_combined_nodup files lang useCache cacheLoaded
  rw [List.nodup_append] at hcomb
  obtain ⟨h1, h2, hd⟩ := hcomb
  rw [List.map_append, List.nodup_append]
  refine ⟨h1, List.Nodup.sublist (newPairs_keys_sublist oracle _) h2, ?_⟩
  intro a ha hnew
  exact hd ha ((newPairs_keys_sublist oracle _).subset hnew)

/-- After a failed batch, the merged translation map has no entry for any
of that batch's strings. -/
theorem gtr_lookup_fail (files : List (String × Json)) (lang : String)
    (useCache : Bool) (cacheLoaded : Cache)
    (oracle : List String → Option (List String)) (b : List String)
    (s : String)
    (hb : b ∈ multiBatches (multiSplitRun files lang useCache cacheLoaded).2)
    (hs : s ∈ b) (hfail : callTranslate oracle b = none) :
    getAssoc (mkMap ((multiSplitRun files lang useCache cacheLoaded).1 ++
      newPairsOf oracle (multiBatches
        (multiSplitRun files lang useCache cacheLoaded).2)))
      (hashString s) = none := by
  have hmiss : s ∈ (multiSplitRun files lang useCache cacheLoaded).2 := by
    rw [← multiBatches_flatten (multiSplitRun files lang useCache
      cacheLoaded).2]
    exact List.mem_flatten.mpr ⟨b, hb, hs⟩
  have hcomb := multiSplitRun_combined_nodup files lang useCache cacheLoaded
  rw [List.nodup_append] at hcomb
  obtain ⟨h1, h2, hd⟩ := hcomb
  have hnotHit : s ∉ ((multiSplitRun files lang useCache cacheLoaded).1.map
      Prod.fst) := fun hc => hd hc hmiss
  have hcount : (((multiBatches (multiSplitRun files lang useCache
      cacheLoaded).2).map (fun c => c.count s)).sum) ≤ 1 := by
    rw [multiBatches_count]
    exact List.nodup_iff_count_le_one.mp h2 s
  have hnotNew := notin_newPairs oracle
    (multiBatches (multiSplitRun files lang useCache cacheLoaded).2) s b
    hb hs hfail hcount
  rw [getAssoc_mkMap, lastAssoc_of_nodup _ _
    (runKeys_nodup files lang useCache cacheLoaded oracle)]
  apply getAssoc_eq_none
  rw [List.map_append]
  intro hc
  rcases List.mem_append.mp hc with hc | hc
  · exact hnotHit (by simpa [hashString] using hc)
  · exact hnotNew (by simpa [hashString] using hc)

/-- A successful batch's non-empty pairs all land in the merged
translation map. -/
theorem gtr_lookup_success (files : List (String × Json)) (lang : String)
    (useCache : Bool) (cacheLoaded : Cache)
    (oracle : List String → Option (List String)) (b2 ts : List String)
    (hb2 : b2 ∈ multiBatches (multiSplitRun files lang useCache
      cacheLoaded).2)
    (hts : callTranslate oracle b2 = some ts) (p : String × String)
    (hp : p ∈ b2.zip ts) (hpne : ¬(p.2 = "")) :
    getAssoc (mkMap ((multiSplitRun files lang useCache cacheLoaded).1 ++
      newPairsOf oracle (multiBatches
        (multiSplitRun files lang useCache cacheLoaded).2)))
      (hashString p.1) = some p.2 := by
  have hmemTb : p ∈ translateBatch oracle b2 := by
    rw [translateBatch, hts]
    exact List.mem_filter.mpr ⟨hp, by simpa using hpne⟩
  have hmemNew : (hashString p.1, p.2) ∈ newPairsOf oracle
      (multiBatches (multiSplitRun files lang useCache cacheLoaded).2) := by
    rw [newPairsOf]
    exact List.mem_map.mpr ⟨p,
      List.mem_flatten.mpr ⟨translateBatch oracle b2,
        List.mem_map.mpr ⟨b2, hb2, rfl⟩, hmemTb⟩, rfl⟩
  rw [getAssoc_mkMap, lastAssoc_of_nodup _ _
    (runKeys_nodup files lang useCache cacheLoaded oracle)]
  exact getAssoc_of_mem_nodup _ _ _
    (runKeys_nodup files lang useCache cacheLoaded oracle)
    (List.mem_append_right _ hmemNew)

/-! ## Claim C4 -/

/-- C4 (corrected): a backend contract violation (wrong result-list
length, or an empty/blank translated value — both rejected by
`validateResponse`) is fatal for that batch only in the merge: none of
the failed batch's strings get a merged translation, while every other
batch's successful non-empty pairs are merged.  Over collision-free,
navigation-safe documents the failed batch's strings' leaves keep their
original values in every output and an output is produced for every
document; without navigation safety a write-back for another string can
clobber a failed string's leaf (see the counterexample). -/
theorem batch_failure_isolated (files : List (String × Json))
    (lang : String) (useCache : Bool) (cacheLoaded : Cache)
    (oracle : List String → Option (List String)) (b : List String)
    (s : String)
    (hb : b ∈ (processMultipleFiles files lang useCache false cacheLoaded
      oracle).requests)
    (hfail : callTranslate oracle b = none)
    (hs : s ∈ b) :
    getAssoc (processMultipleFiles files lang useCache false cacheLoaded
        oracle).globalTranslations (hashString s) = none ∧
    (∀ (f : String) (d : Json), (f, d) ∈ files → NoCollide d →
      SafeDoc d = true →
      ∀ (i : Nat) (k : String), (flattenEntries d)[i]? = some (k, s) →
        ∃ out, applyTranslations (flattenObjectWithPaths d)
            (processMultipleFiles files lang useCache false cacheLoaded
              oracle).globalTranslations d = some out ∧
          (flattenEntries out)[i]? = some (k, s)) ∧
    (∀ (b2 ts : List String),
      b2 ∈ (processMultipleFiles files lang useCache false cacheLoaded
        oracle).requests →
      callTranslate oracle b2 = some ts →
      ∀ p ∈ b2.zip ts, ¬(p.2 = "") →
        getAssoc (processMultipleFiles files lang useCache false cacheLoaded
          oracle).globalTranslations (hashString p.1) = some p.2) ∧
    ((∀ fd ∈ files, SafeDoc fd.2 = true) →
      (processMultipleFiles files lang useCache false cacheLoaded
        oracle).outputs.length = files.length) := by
  rw [processMultipleFiles_requests] at hb
  have hnone := gtr_lookup_fail files lang useCache cacheLoaded oracle b s
    hb hs hfail
  refine ⟨?_, ?_, ?_, ?_⟩
  · rw [processMultipleFiles_translations]
    exact hnone
  · intro f d hfd hn hsafe i k he
    refine ⟨applyStruct (flattenObjectWithPaths d)
      (processMultipleFiles files lang useCache false cacheLoaded
        oracle).globalTranslations d,
      applyTranslations_safe _ _ d hsafe, ?_⟩
    rw [out_entry d _ i k s he]
    have hsrc := srcMap_resolves d hn k s (mem_of_getElem_opt _ i _ he)
    rw [processMultipleFiles_translations]
    simp [replaceVal, hsrc, hnone]
  · intro b2 ts hb2 hts p hp hpne
    rw [processMultipleFiles_requests] at hb2
    rw [processMultipleFiles_translations]
    exact gtr_lookup_success files lang useCache cacheLoaded oracle b2 ts
      hb2 hts p hp hpne
  · intro hall
    rw [processMultipleFiles_outputs, rebuildOutputs_safe _ files hall,
      List.length_map]

/-- Witness for C4's amended theorem at a concrete contract-violating
backend (one result too few) over one document. -/
theorem batch_failure_isolated_witness :
    (["Hello"] ∈ (processMultipleFiles [("f1", demoDoc2)] "es" false false
      [] shortOracle).requests) ∧
    callTranslate shortOracle ["Hello"] = none ∧
    ("Hello" ∈ (["Hello"] : List String)) ∧
    (getAssoc (processMultipleFiles [("f1", demoDoc2)] "es" false false []
        shortOracle).globalTranslations (hashString "Hello") = none ∧
      (∀ (f : String) (d : Json), (f, d) ∈ [("f1", demoDoc2)] →
        NoCollide d → SafeDoc d = true →
        ∀ (i : Nat) (k : String),
          (flattenEntries d)[i]? = some (k, "Hello") →
          ∃ out, applyTranslations (flattenObjectWithPaths d)
              (processMultipleFiles [("f1", demoDoc2)] "es" false false []
                shortOracle).globalTranslations d = some out ∧
            (flattenEntries out)[i]? = some (k, "Hello")) ∧
      (∀ (b2 ts : List String),
        b2 ∈ (processMultipleFiles [("f1", demoDoc2)] "es" false false []
          shortOracle).requests →
        callTranslate shortOracle b2 = some ts →
        ∀ p ∈ b2.zip ts, ¬(p.2 = "") →
          getAssoc (processMultipleFiles [("f1", demoDoc2)] "es" false
            false [] shortOracle).globalTranslations (hashString p.1)
            = some p.2) ∧
      ((∀ fd ∈ [("f1", demoDoc2)], SafeDoc fd.2 = true) →
        (processMultipleFiles [("f1", demoDoc2)] "es" false false []
          shortOracle).outputs.length = [("f1", demoDoc2)].length)) :=
  ⟨by decide, by decide, by decide,
    batch_failure_isolated [("f1", demoDoc2)] "es" false [] shortOracle
      ["Hello"] "Hello" (by decide) (by decide) (by decide)⟩

set_option maxRecDepth 400000 in
set_option maxHeartbeats 4000000 in
/-- Counterexample for C4 as stated: over `clobberDoc` (101 distinct
strings) the single-file path makes two batches of 51 and 50; the first
(holding `"A"`) gets a contract-violating empty response, the second
succeeds.  `"A"` indeed gets no merged translation — but its leaf (key
`"0"`) does not retain its original value: the successful write-back for
`"B"` (key `"[0]"`, reinterpreted as `parseInt("0")`, property key
`"0"`) clobbers it with `"B!"`. -/
theorem batch_failure_isolated_cex :
    (processSingleFile clobberDoc "f" "es" false false []
        cexOracle).requests[0]? = some failedBatch ∧
    ("A" ∈ failedBatch) ∧
    callTranslate cexOracle failedBatch = none ∧
    getAssoc (processSingleFile clobberDoc "f" "es" false false []
        cexOracle).translations (hashString "A") = none ∧
    (flattenEntries clobberDoc)[0]? = some ("0", "A") ∧
    Option.map (fun out => (flattenEntries out)[0]?)
      (processSingleFile clobberDoc "f" "es" false false []
        cexOracle).output = some (some ("0", "B!")) :=
  ⟨by decide, by decide, by decide, by decide, by decide, by decide⟩

/-! ## Cache record / prune lemmas -/

theorem langCacheOf_record3_self (c : Cache) (f l h v : String) :
    langCacheOf (record3 c f l h v) f l =
      setAssoc (langCacheOf c f l) h v := by
  rw [record3, langCacheOf, getAssoc_setAssoc, if_pos rfl,
    Option.getD_some, getAssoc_setAssoc, if_pos rfl, Option.getD_some,
    langCacheOf]

theorem lookup3_record3_self (c : Cache) (f l h v : String) :
    lookup3 (record3 c f l h v) f l h = some v := by
  rw [lookup3, langCacheOf_record3_self, getAssoc_setAssoc, if_pos rfl]

theorem langCacheOf_record3_other (c : Cache) (f l h v f' l' : String)
    (hne : ¬(f = f') ∨ ¬(l = l')) :
    langCacheOf (record3 c f l h v) f' l' = langCacheOf c f' l' := by
  by_cases hf : f = f'
  · have hl : ¬(l = l') := by
      rcases hne with h1 | h1
      · exact absurd hf h1
      · exact h1
    subst hf
    rw [record3, langCacheOf, getAssoc_setAssoc, if_pos rfl,
      Option.getD_some, getAssoc_setAssoc, if_neg hl, langCacheOf]
  · rw [record3, langCacheOf, getAssoc_setAssoc, if_neg hf, langCacheOf]

theorem lookup3_record3_other (c : Cache) (f l h v f' l' h' : String)
    (hne : ¬(f = f') ∨ ¬(l = l') ∨ ¬(h = h')) :
    lookup3 (record3 c f l h v) f' l' h' = lookup3 c f' l' h' := by
  by_cases hf : f = f'
  · by_cases hl : l = l'
    · have hh : ¬(h = h') := by
        rcases hne with h1 | h1 | h1
        · exact absurd hf h1
        · exact absurd hl h1
        · exact h1
      subst hf
      subst hl
      rw [lookup3, langCacheOf_record3_self, getAssoc_setAssoc, if_neg hh,
        lookup3]
    · rw [lookup3, langCacheOf_record3_other c f l h v f' l' (Or.inr hl),
        lookup3]
  · rw [lookup3, langCacheOf_record3_other c f l h v f' l' (Or.inl hf),
      lookup3]

theorem recordAll_preserve (c : Cache) (f l : String)
    (prs : List (String × String)) (f' l' h' : String)
    (hne : h' ∉ prs.map Prod.fst) :
    lookup3 (recordAll c f l prs) f' l' h' = lookup3 c f' l' h' := by
  induction prs generalizing c with
  | nil => rfl
  | cons p rest ih =>
      rw [List.map_cons] at hne
      rw [recordAll, List.foldl_cons]
      have hstep := lookup3_record3_other c f l p.1 p.2 f' l' h'
        (Or.inr (Or.inr (fun he => hne (he ▸ List.mem_cons_self _ _))))
      calc lookup3 ((recordAll (record3 c f l p.1 p.2) f l rest)) f' l' h'
          = lookup3 (record3 c f l p.1 p.2) f' l' h' :=
            ih (record3 c f l p.1 p.2)
              (fun hc => hne (List.mem_cons_of_mem _ hc))
        _ = lookup3 c f' l' h' := hstep

theorem getAssoc_filter_keys (lc : LangCache) (current : List String)
    (h : String) (hh : h ∈ current) :
    getAssoc (lc.filter (fun p => p.1 ∈ current)) h = getAssoc lc h := by
  induction lc with
  | nil => rfl
  | cons p rest ih =>
      by_cases hp : p.1 ∈ current
      · rw [List.filter_cons_of_pos (by simpa using hp)]
        rw [getAssoc, getAssoc, ih]
      · rw [List.filter_cons_of_neg (by simpa using hp)]
        have hne : ¬(p.1 = h) := fun he => hp (he ▸ hh)
        rw [getAssoc, if_neg hne, ih]

/-- Every entry surviving a prune has a current fingerprint, and its value
is unchanged from before the prune. -/
theorem lookup3_pruneCache (c : Cache) (f l : String)
    (current : List String) (h v : String)
    (hl : lookup3 (pruneCache c f l current).1 f l h = some v) :
    h ∈ current ∧ lookup3 c f l h = some v := by
  rw [pruneCache] at hl
  rcases hf : getAssoc c f with _ | fc
  · rw [hf] at hl
    exact ⟨absurd hl (by
      rw [lookup3, langCacheOf, hf]
      simp [getAssoc]), hl⟩
  · simp only [hf] at hl
    rcases hlc : getAssoc fc l with _ | lc
    · simp only [hlc] at hl
      exact ⟨absurd hl (by
        rw [lookup3, langCacheOf, hf, Option.getD_some, hlc]
        simp [getAssoc]), hl⟩
    · simp only [hlc] at hl
      rw [lookup3, langCacheOf, getAssoc_setAssoc, if_pos rfl,
        Option.getD_some, getAssoc_setAssoc, if_pos rfl,
        Option.getD_some] at hl
      have hmem := mem_of_getAssoc _ _ _ hl
      have hcur : h ∈ current := by
        have := List.mem_filter.mp hmem
        simpa using this.2
      refine ⟨hcur, ?_⟩
      rw [lookup3, langCacheOf, hf, Option.getD_some, hlc, Option.getD_some]
      rw [← getAssoc_filter_keys lc current h hcur]
      exact hl

/-- Pruning keeps every entry whose fingerprint is current. -/
theorem lookup3_pruneCache_current (c : Cache) (f l : String)
    (current : List String) (h : String) (hh : h ∈ current) :
    lookup3 (pruneCache c f l current).1 f l h = lookup3 c f l h := by
  rw [pruneCache]
  rcases hf : getAssoc c f with _ | fc
  · simp only [hf]
  · simp only [hf]
    rcases hlc : getAssoc fc l with _ | lc
    · simp only [hlc]
    · simp only [hlc]
      rw [lookup3, langCacheOf, getAssoc_setAssoc, if_pos rfl,
        Option.getD_some, getAssoc_setAssoc, if_pos rfl, Option.getD_some]
      rw [getAssoc_filter_keys lc current h hh]
      rw [lookup3, langCacheOf, hf, Option.getD_some, hlc, Option.getD_some]

theorem filter_length_all {α : Type} (l : List α) (p : α → Bool)
    (h : (l.filter p).length = l.length) : ∀ a ∈ l, p a := by
  induction l with
  | nil => simp
  | cons x xs ih =>
      by_cases hx : p x
      · rw [List.filter_cons_of_pos hx] at h
        simp only [List.length_cons] at h
        intro a ha
        rcases List.mem_cons.mp ha with h1 | h1
        · exact h1 ▸ hx
        · exact ih (by omega) a h1
      · rw [List.filter_cons_of_neg hx] at h
        have hle := List.length_filter_le p xs
        simp only [List.length_cons] at h
        exfalso
        omega

/-- A pruned-nothing result means every stored fingerprint was already
current. -/
theorem pruneCache_zero (c : Cache) (f l : String)
    (current : List String) (h v : String)
    (hz : (pruneCache c f l current).2 = 0)
    (hl : lookup3 c f l h = some v) : h ∈ current := by
  rw [pruneCache] at hz
  rcases hf : getAssoc c f with _ | fc
  · rw [lookup3, langCacheOf, hf] at hl
    simp [getAssoc] at hl
  · simp only [hf] at hz
    rcases hlc : getAssoc fc l with _ | lc
    · rw [lookup3, langCacheOf, hf, Option.getD_some, hlc] at hl
      simp [getAssoc] at hl
    · simp only [hlc] at hz
      have hlen : (lc.filter (fun p => p.1 ∈ current)).length
          = lc.length := by
        have hle := List.length_filter_le
          (fun p => decide (p.1 ∈ current)) lc
        omega
      have hall := filter_length_all lc _ hlen
      rw [lookup3, langCacheOf, hf, Option.getD_some, hlc,
        Option.getD_some] at hl
      have hmem := mem_of_getAssoc _ _ _ hl
      simpa using hall _ hmem

theorem fold_record_files_preserve (fs : List String) (c : Cache)
    (lang h t f' l' h' : String) (hne : ¬(h = h')) :
    lookup3 (fs.foldl (fun c f => record3 c f lang h t) c) f' l' h'
      = lookup3 c f' l' h' := by
  induction fs generalizing c with
  | nil => rfl
  | cons f0 rest ih =>
      rw [List.foldl_cons, ih]
      exact lookup3_record3_other c f0 lang h t f' l' h'
        (Or.inr (Or.inr hne))

theorem recordMulti_preserve (c : Cache) (lang : String)
    (gsm : List (String × List String)) (gtr : List (String × String))
    (f' l' h' : String)
    (hne : h' ∉ gsm.map (fun p => hashString p.1)) :
    lookup3 (recordMulti c lang gsm gtr) f' l' h' = lookup3 c f' l' h' := by
  induction gsm generalizing c with
  | nil => rfl
  | cons p rest ih =>
      rw [List.map_cons] at hne
      have hne1 : ¬(hashString p.1 = h') :=
        fun he => hne (he ▸ List.mem_cons_self _ _)
      have hne2 : h' ∉ rest.map (fun p => hashString p.1) :=
        fun hc => hne (List.mem_cons_of_mem _ hc)
      rw [recordMulti, List.foldl_cons]
      rcases hg : getAssoc gtr (hashString p.1) with _ | t
      · simp only [hg]
        exact ih _ hne2
      · simp only [hg]
        rw [show (rest.foldl (fun c p =>
            match getAssoc gtr (hashString p.1) with
            | some t => p.2.foldl (fun c f => record3 c f lang
                (hashString p.1) t) c
            | none => c)
            (p.2.foldl (fun c f => record3 c f lang (hashString p.1) t) c))
          = recordMulti (p.2.foldl (fun c f => record3 c f lang
              (hashString p.1) t) c) lang rest gtr from rfl]
        rw [ih _ hne2]
        exact fold_record_files_preserve p.2 c lang (hashString p.1) t
          f' l' h' hne1

theorem cacheSplit_not_miss (lc : LangCache) (l : List String) (s v : String)
    (hv : getAssoc lc (hashString s) = some v) (hvne : ¬(v = "")) :
    s ∉ (cacheSplit lc l).2 := by
  induction l with
  | nil => simp [cacheSplit]
  | cons x xs ih =>
      rw [cacheSplit]
      by_cases hx : x = s
      · subst hx
        simp only [hv, if_neg hvne]
        exact fun hc => ih hc
      · rcases hg : getAssoc lc (hashString x) with _ | t
        · simp only [hg]
          intro hc
          rcases List.mem_cons.mp hc with h1 | h1
          · exact hx h1.symm
          · exact ih h1
        · by_cases ht : t = ""
          · simp only [hg, if_pos ht]
            intro hc
            rcases List.mem_cons.mp hc with h1 | h1
            · exact hx h1.symm
            · exact ih h1
          · simp only [hg, if_neg ht]
            exact fun hc => ih hc

theorem newPairs_keys_sublist_single
    (oracle : List String → Option (List String)) (m : List String) :
    ((newPairsOf oracle (singleBatches m)).map Prod.fst).Sublist m := by
  rw [newPairsOf_keys]
  have h := flatMap_sublist_flatten (singleBatches m) _
    (fun c => translateBatch_fst_sublist oracle c)
  rwa [singleBatches_flatten] at h

theorem processSingleFile_cacheAfter_true (doc : Json)
    (filePath lang : String) (cacheLoaded : Cache)
    (oracle : List String → Option (List String)) :
    (processSingleFile doc filePath lang true false cacheLoaded
        oracle).cacheAfter
      = (if (!(newPairsOf oracle (singleBatches
            (singleSplit doc filePath lang true cacheLoaded).2)).isEmpty
          || !((pruneCache (recordAll cacheLoaded filePath lang
              (newPairsOf oracle (singleBatches
                (singleSplit doc filePath lang true cacheLoaded).2)))
            filePath lang
            (((flattenObjectWithPaths doc).map Prod.snd).map
              hashString)).2 == 0))
        then (pruneCache (recordAll cacheLoaded filePath lang
              (newPairsOf oracle (singleBatches
                (singleSplit doc filePath lang true cacheLoaded).2)))
            filePath lang
            (((flattenObjectWithPaths doc).map Prod.snd).map
              hashString)).1
        else cacheLoaded) := rfl

theorem processMultipleFiles_cacheAfter (files : List (String × Json))
    (lang : String) (useCache : Bool) (cacheLoaded : Cache)
    (oracle : List String → Option (List String)) :
    (processMultipleFiles files lang useCache false cacheLoaded
        oracle).cacheAfter
      = (if (useCache &&
            !(multiSplitRun files lang useCache cacheLoaded).2.isEmpty)
        then recordMulti cacheLoaded lang (globalStringMap files)
            (processMultipleFiles files lang useCache false cacheLoaded
              oracle).globalTranslations
        else cacheLoaded) := rfl

/-! ## Claim C6 -/

/-- C6 (corrected): in the single-file path (cache enabled) pruning runs
before persistence and is exact — every fingerprint surviving in the
persisted per-document, per-language cache is in the document's current
flattened string set, and every current truthy entry survives with its
value.  The multi-file path, however, performs no pruning at all: any
stale entry (fingerprint outside the run's string set) survives the run
verbatim, under every file and language. -/
theorem prune_semantics (doc : Json) (filePath lang : String)
    (cacheLoaded : Cache) (oracle : List String → Option (List String))
    (files : List (String × Json)) (mlang : String) (museCache : Bool)
    (s v : String)
    (hs : s ∈ (flattenObjectWithPaths doc).map Prod.snd)
    (hv0 : lookup3 cacheLoaded filePath lang (hashString s) = some v)
    (hvne : ¬(v = ""))
    (f' l' h' v' : String)
    (hstale : h' ∉ (globalStringMap files).map (fun p => hashString p.1))
    (hv1 : lookup3 cacheLoaded f' l' h' = some v') :
    (∀ (h v2 : String),
      lookup3 (processSingleFile doc filePath lang true false cacheLoaded
        oracle).cacheAfter filePath lang h = some v2 →
      h ∈ ((flattenObjectWithPaths doc).map Prod.snd).map hashString) ∧
    lookup3 (processSingleFile doc filePath lang true false cacheLoaded
      oracle).cacheAfter filePath lang (hashString s) = some v ∧
    lookup3 (processMultipleFiles files mlang museCache false cacheLoaded
      oracle).cacheAfter f' l' h' = some v' := by
  refine ⟨?_, ?_, ?_⟩
  · intro h v2 hl
    rw [processSingleFile_cacheAfter_true] at hl
    by_cases hsv : (!(newPairsOf oracle (singleBatches
          (singleSplit doc filePath lang true cacheLoaded).2)).isEmpty
        || !((pruneCache (recordAll cacheLoaded filePath lang
            (newPairsOf oracle (singleBatches
              (singleSplit doc filePath lang true cacheLoaded).2)))
          filePath lang
          (((flattenObjectWithPaths doc).map Prod.snd).map
            hashString)).2 == 0)) = true
    · rw [if_pos hsv] at hl
      exact (lookup3_pruneCache _ _ _ _ h v2 hl).1
    · rw [if_neg hsv] at hl
      rw [Bool.or_eq_true, not_or] at hsv
      obtain ⟨hnp, hpz⟩ := hsv
      have hnil : newPairsOf oracle (singleBatches
          (singleSplit doc filePath lang true cacheLoaded).2) = [] := by
        rcases hx : newPairsOf oracle (singleBatches
            (singleSplit doc filePath lang true cacheLoaded).2) with _ | _
        · rfl
        · rw [hx] at hnp
          simp at hnp
      have hz : (pruneCache (recordAll cacheLoaded filePath lang
          (newPairsOf oracle (singleBatches
            (singleSplit doc filePath lang true cacheLoaded).2)))
          filePath lang
          (((flattenObjectWithPaths doc).map Prod.snd).map
            hashString)).2 = 0 := by
        by_contra hc
        exact hpz (by simpa using hc)
      rw [hnil] at hz
      exact pruneCache_zero cacheLoaded filePath lang _ h v2 hz hl
  · rw [processSingleFile_cacheAfter_true]
    have hcur : hashString s ∈
        ((flattenObjectWithPaths doc).map Prod.snd).map hashString :=
      List.mem_map.mpr ⟨s, hs, rfl⟩
    have hnotmiss : s ∉ (singleSplit doc filePath lang true cacheLoaded).2 := by
      show s ∉ (cacheSplit (langCacheOf cacheLoaded filePath lang)
        (allStringsOf doc)).2
      exact cacheSplit_not_miss _ _ s v hv0 hvne
    have hnotnew : hashString s ∉ (newPairsOf oracle (singleBatches
        (singleSplit doc filePath lang true cacheLoaded).2)).map
          Prod.fst := by
      intro hc
      exact hnotmiss ((newPairs_keys_sublist_single oracle _).subset hc)
    by_cases hsv : (!(newPairsOf oracle (singleBatches
          (singleSplit doc filePath lang true cacheLoaded).2)).isEmpty
        || !((pruneCache (recordAll cacheLoaded filePath lang
            (newPairsOf oracle (singleBatches
              (singleSplit doc filePath lang true cacheLoaded).2)))
          filePath lang
          (((flattenObjectWithPaths doc).map Prod.snd).map
            hashString)).2 == 0)) = true
    · rw [if_pos hsv]
      rw [lookup3_pruneCache_current _ _ _ _ _ hcur]
      rw [recordAll_preserve _ _ _ _ _ _ _ hnotnew]
      exact hv0
    · rw [if_neg hsv]
      exact hv0
  · rw [processMultipleFiles_cacheAfter]
    by_cases hsv : (museCache &&
        !(multiSplitRun files mlang museCache cacheLoaded).2.isEmpty) = true
    · rw [if_pos hsv]
      rw [recordMulti_preserve _ _ _ _ _ _ _ hstale]
      exact hv1
    · rw [if_neg hsv]
      exact hv1

/-- Witness for C6's amended theorem at a concrete cached run. -/
theorem prune_semantics_witness :
    ("Hello" ∈ (flattenObjectWithPaths demoDoc2).map Prod.snd) ∧
    lookup3 [("f", [("es", [("Hello", "Hola"), ("Stale", "Alt")])])]
      "f" "es" (hashString "Hello") = some "Hola" ∧
    (¬("Hola" = "")) ∧
    ("Stale" ∉ (globalStringMap [("f", demoDoc2), ("g", demoDoc3)]).map
      (fun p => hashString p.1)) ∧
    lookup3 [("f", [("es", [("Hello", "Hola"), ("Stale", "Alt")])])]
      "f" "es" "Stale" = some "Alt" ∧
    ((∀ (h v2 : String),
      lookup3 (processSingleFile demoDoc2 "f" "es" true false
        [("f", [("es", [("Hello", "Hola"), ("Stale", "Alt")])])]
        demoOracle).cacheAfter "f" "es" h = some v2 →
      h ∈ ((flattenObjectWithPaths demoDoc2).map Prod.snd).map hashString) ∧
    lookup3 (processSingleFile demoDoc2 "f" "es" true false
      [("f", [("es", [("Hello", "Hola"), ("Stale", "Alt")])])]
      demoOracle).cacheAfter "f" "es" (hashString "Hello") = some "Hola" ∧
    lookup3 (processMultipleFiles [("f", demoDoc2), ("g", demoDoc3)] "es"
      true false [("f", [("es", [("Hello", "Hola"), ("Stale", "Alt")])])]
      demoOracle).cacheAfter "f" "es" "Stale" = some "Alt") :=
  ⟨by decide, by decide, by decide, by decide, by decide,
    prune_semantics demoDoc2 "f" "es"
      [("f", [("es", [("Hello", "Hola"), ("Stale", "Alt")])])] demoOracle
      [("f", demoDoc2), ("g", demoDoc3)] "es" true "Hello" "Hola"
      (by decide) (by decide) (by decide) "f" "es" "Stale" "Alt"
      (by decide) (by decide)⟩

/-- Counterexample for C6 as stated: a multi-file run over a document that
no longer contains the string fingerprinted `"Stale"` persists the cache
(one miss was translated) yet the stale entry for that document and
language survives — the multi-file path never prunes. -/
theorem prune_semantics_cex :
    ("Stale" ∉ (flattenObjectWithPaths demoDoc2).map Prod.snd) ∧
    lookup3 [("F", [("es", [("Stale", "Alt")])])] "F" "es" "Stale"
      = some "Alt" ∧
    (processMultipleFiles [("F", demoDoc2)] "es" true false
      [("F", [("es", [("Stale", "Alt")])])] demoOracle).cacheSaved
      = true ∧
    lookup3 (processMultipleFiles [("F", demoDoc2)] "es" true false
      [("F", [("es", [("Stale", "Alt")])])] demoOracle).cacheAfter
      "F" "es" (hashString "Stale") = some "Alt" := by
  refine ⟨by decide, by decide, ?_, ?_⟩
  · rfl
  · rfl

/-! ## Claim C8: supporting lemmas -/

theorem findCachedIn_exists (c : Cache) (lang h : String)
    (fs : List String) (f' : String) (hf : f' ∈ fs) (t : String)
    (ht : lookup3 c f' lang h = some t) (htne : ¬(t = "")) :
    ∃ t2, findCachedIn c lang h fs = some t2 ∧ ¬(t2 = "") := by
  induction fs with
  | nil => simp at hf
  | cons f0 rest ih =>
      rw [findCachedIn]
      rcases hl : lookup3 c f0 lang h with _ | t0
      · simp only [hl]
        rcases List.mem_cons.mp hf with h1 | h1
        · exfalso
          rw [h1] at ht
          rw [ht] at hl
          cases hl
        · exact ih h1
      · simp only [hl]
        by_cases ht0 : t0 = ""
        · rw [if_pos ht0]
          rcases List.mem_cons.mp hf with h1 | h1
          · exfalso
            rw [h1] at ht
            rw [ht] at hl
            have : t = t0 := Option.some.inj hl
            exact htne (this.trans ht0)
          · exact ih h1
        · rw [if_neg ht0]
          exact ⟨t0, rfl, ht0⟩

theorem multiSplit_hit (c : Cache) (lang : String)
    (gsm : List (String × List String)) (s : String) (fs : List String)
    (t2 : String) (hn : (gsm.map Prod.fst).Nodup)
    (hmem : (s, fs) ∈ gsm)
    (hf : findCachedIn c lang (hashString s) fs = some t2) :
    (hashString s, t2) ∈ (multiSplit c lang gsm).1 ∧
      s ∉ (multiSplit c lang gsm).2 := by
  induction gsm with
  | nil => simp at hmem
  | cons p rest ih =>
      obtain ⟨s0, fs0⟩ := p
      rw [multiSplit]
      simp only [List.map_cons, List.nodup_cons] at hn
      rcases List.mem_cons.mp hmem with h1 | h1
      · have hs0 : s = s0 := congrArg Prod.fst h1
        have hfs0 : fs = fs0 := congrArg Prod.snd h1
        subst hs0
        subst hfs0
        simp only [hf]
        refine ⟨List.mem_cons_self _ _, ?_⟩
        intro hc
        exact hn.1 ((multiSplit_sublist c lang rest).subset hc)
      · have hsr : s ∈ rest.map Prod.fst :=
          List.mem_map.mpr ⟨(s, fs), h1, rfl⟩
        have hne : ¬(s = s0) := fun he => hn.1 (he ▸ hsr)
        obtain ⟨ihm, ihn⟩ := ih hn.2 h1
        rcases hf0 : findCachedIn c lang (hashString s0) fs0 with _ | t0
        · simp only [hf0]
          refine ⟨ihm, ?_⟩
          intro hc
          rcases List.mem_cons.mp hc with h2 | h2
          · exact hne h2
          · exact ihn h2
        · simp only [hf0]
          exact ⟨List.mem_cons_of_mem _ ihm, ihn⟩

/-- A cache hit lands in the merged translation map. -/
theorem gtr_lookup_hit (files : List (String × Json)) (lang : String)
    (cacheLoaded : Cache)
    (oracle : List String → Option (List String)) (s t2 : String)
    (hmem : (hashString s, t2) ∈ (multiSplitRun files lang true
      cacheLoaded).1) :
    getAssoc (mkMap ((multiSplitRun files lang true cacheLoaded).1 ++
      newPairsOf oracle (multiBatches
        (multiSplitRun files lang true cacheLoaded).2)))
      (hashString s) = some t2 := by
  rw [getAssoc_mkMap, lastAssoc_of_nodup _ _
    (runKeys_nodup files lang true cacheLoaded oracle)]
  exact getAssoc_of_mem_nodup _ _ _
    (runKeys_nodup files lang true cacheLoaded oracle)
    (List.mem_append_left _ hmem)

theorem fold_record_files_preserve_file (fs : List String) (c : Cache)
    (lang h t f' l' h' : String) (hf : f' ∉ fs) :
    lookup3 (fs.foldl (fun c f => record3 c f lang h t) c) f' l' h'
      = lookup3 c f' l' h' := by
  induction fs generalizing c with
  | nil => rfl
  | cons f0 rest ih =>
      rw [List.foldl_cons, ih _ (fun hc => hf (List.mem_cons_of_mem _ hc))]
      exact lookup3_record3_other c f0 lang h t f' l' h'
        (Or.inl (fun he => hf (he ▸ List.mem_cons_self _ _)))

theorem fold_record_files_self (fs : List String) (c : Cache)
    (lang h t f : String) (hf : f ∈ fs) :
    lookup3 (fs.foldl (fun c f => record3 c f lang h t) c) f lang h
      = some t := by
  induction fs generalizing c with
  | nil => simp at hf
  | cons f0 rest ih =>
      rw [List.foldl_cons]
      by_cases hfr : f ∈ rest
      · exact ih _ hfr
      · have hff0 : f = f0 := by
          rcases List.mem_cons.mp hf with h1 | h1
          · exact h1
          · exact absurd h1 hfr
        subst hff0
        rw [fold_record_files_preserve_file rest _ lang h t f lang h hfr]
        exact lookup3_record3_self c f lang h t

/-- `recordMulti` records a translated string under every file containing
it. -/
theorem recordMulti_records (c : Cache) (lang : String)
    (gsm : List (String × List String)) (gtr : List (String × String))
    (s : String) (fs : List String) (t' : String)
    (hn : (gsm.map Prod.fst).Nodup) (hmem : (s, fs) ∈ gsm)
    (hg : getAssoc gtr (hashString s) = some t') (f : String)
    (hf : f ∈ fs) :
    lookup3 (recordMulti c lang gsm gtr) f lang (hashString s)
      = some t' := by
  induction gsm generalizing c with
  | nil => simp at hmem
  | cons p rest ih =>
      obtain ⟨s0, fs0⟩ := p
      simp only [List.map_cons, List.nodup_cons] at hn
      rw [recordMulti, List.foldl_cons]
      rcases List.mem_cons.mp hmem with h1 | h1
      · have hs0 : s = s0 := congrArg Prod.fst h1
        have hfs0 : fs = fs0 := congrArg Prod.snd h1
        subst hs0
        subst hfs0
        simp only [hg]
        rw [show (rest.foldl (fun c p =>
            match getAssoc gtr (hashString p.1) with
            | some t => p.2.foldl (fun c f => record3 c f lang
                (hashString p.1) t) c
            | none => c)
            (fs.foldl (fun c f => record3 c f lang (hashString s) t') c))
          = recordMulti (fs.foldl (fun c f => record3 c f lang
              (hashString s) t') c) lang rest gtr from rfl]
        rw [recordMulti_preserve _ _ _ _ _ _ _ (by
          intro hc
          apply hn.1
          simpa [hashString] using hc)]
        exact fold_record_files_self fs c lang (hashString s) t' f hf
      · rcases hg0 : getAssoc gtr (hashString s0) with _ | t0
        · simp only [hg0]
          rw [show (rest.foldl (fun c p =>
              match getAssoc gtr (hashString p.1) with
              | some t => p.2.foldl (fun c f => record3 c f lang
                  (hashString p.1) t) c
              | none => c) c)
            = recordMulti c lang rest gtr from rfl]
          exact ih c hn.2 h1
        · simp only [hg0]
          rw [show (rest.foldl (fun c p =>
              match getAssoc gtr (hashString p.1) with
              | some t => p.2.foldl (fun c f => record3 c f lang
                  (hashString p.1) t) c
              | none => c)
              (fs0.foldl (fun c f => record3 c f lang (hashString s0) t0) c))
            = recordMulti (fs0.foldl (fun c f => record3 c f lang
                (hashString s0) t0) c) lang rest gtr from rfl]
          exact ih _ hn.2 h1

/-! ## Claim C8 -/

/-- C8: in a cached multi-file run, a string whose persisted entry lives
under any document of the run containing it is never sent to the backend
(it appears in no request batch) and still receives a merged translation;
and every string that was translated in the run is recorded in the
persisted cache under every document containing it. -/
theorem cross_document_reuse (files : List (String × Json)) (lang : String)
    (cacheLoaded : Cache) (oracle : List String → Option (List String))
    (s : String) (fs : List String) (f' t : String)
    (hmem : (s, fs) ∈ globalStringMap files)
    (hf' : f' ∈ fs)
    (ht : lookup3 cacheLoaded f' lang (hashString s) = some t)
    (htne : ¬(t = ""))
    (s2 t2 : String) (fs2 : List String) (f2 : String)
    (hmem2 : (s2, fs2) ∈ globalStringMap files)
    (hs2 : s2 ∈ (multiSplitRun files lang true cacheLoaded).2)
    (hg2 : getAssoc (processMultipleFiles files lang true false cacheLoaded
      oracle).globalTranslations (hashString s2) = some t2)
    (hf2 : f2 ∈ fs2) :
    (∀ b ∈ (processMultipleFiles files lang true false cacheLoaded
      oracle).requests, s ∉ b) ∧
    (∃ tv, getAssoc (processMultipleFiles files lang true false cacheLoaded
      oracle).globalTranslations (hashString s) = some tv) ∧
    (processMultipleFiles files lang true false cacheLoaded
      oracle).cacheSaved = true ∧
    lookup3 (processMultipleFiles files lang true false cacheLoaded
      oracle).cacheAfter f2 lang (hashString s2) = some t2 := by
  obtain ⟨tv, hfc, htvne⟩ :=
    findCachedIn_exists cacheLoaded lang (hashString s) fs f' hf' t ht htne
  have hsplit : multiSplitRun files lang true cacheLoaded
      = multiSplit cacheLoaded lang (globalStringMap files) := rfl
  obtain ⟨hhit, hnomiss⟩ := multiSplit_hit cacheLoaded lang
    (globalStringMap files) s fs tv (nodup_globalStringMap files) hmem hfc
  have hsaved : (processMultipleFiles files lang true false cacheLoaded
      oracle).cacheSaved = true := by
    have hne : (multiSplitRun files lang true cacheLoaded).2 ≠ [] :=
      List.ne_nil_of_mem hs2
    show (true && !(multiSplitRun files lang true cacheLoaded).2.isEmpty)
      = true
    simp [hne]
  refine ⟨?_, ?_, hsaved, ?_⟩
  · intro b hb hsb
    rw [processMultipleFiles_requests] at hb
    apply hnomiss
    rw [← hsplit]
    rw [← multiBatches_flatten (multiSplitRun files lang true cacheLoaded).2]
    exact List.mem_flatten.mpr ⟨b, hb, hsb⟩
  · refine ⟨tv, ?_⟩
    rw [processMultipleFiles_translations]
    exact gtr_lookup_hit files lang cacheLoaded oracle s tv
      (by rw [hsplit]; exact hhit)
  · rw [processMultipleFiles_cacheAfter]
    have hne : (multiSplitRun files lang true cacheLoaded).2 ≠ [] :=
      List.ne_nil_of_mem hs2
    rw [if_pos (by simp [hne])]
    exact recordMulti_records cacheLoaded lang (globalStringMap files) _
      s2 fs2 t2 (nodup_globalStringMap files) hmem2 hg2 f2 hf2

/-- Witness for C8: `"Hello"` misses under document `a` but hits under
document `b`; `"World"` is freshly translated and recorded under its
document. -/
theorem cross_document_reuse_witness :
    (("Hello", ["a", "b"]) ∈ globalStringMap
      [("a", demoDoc2), ("b", demoDoc2), ("g", demoDoc3)]) ∧
    ("b" ∈ (["a", "b"] : List String)) ∧
    lookup3 [("b", [("es", [("Hello", "Hola")])])] "b" "es"
      (hashString "Hello") = some "Hola" ∧
    (("World", ["g"]) ∈ globalStringMap
      [("a", demoDoc2), ("b", demoDoc2), ("g", demoDoc3)]) ∧
    ("World" ∈ (multiSplitRun
      [("a", demoDoc2), ("b", demoDoc2), ("g", demoDoc3)] "es" true
      [("b", [("es", [("Hello", "Hola")])])]).2) ∧
    getAssoc (processMultipleFiles
      [("a", demoDoc2), ("b", demoDoc2), ("g", demoDoc3)] "es" true false
      [("b", [("es", [("Hello", "Hola")])])] demoOracle).globalTranslations
      (hashString "World") = some "World!" ∧
    ((∀ b ∈ (processMultipleFiles
        [("a", demoDoc2), ("b", demoDoc2), ("g", demoDoc3)] "es" true
        false [("b", [("es", [("Hello", "Hola")])])] demoOracle).requests,
      "Hello" ∉ b) ∧
      (∃ tv, getAssoc (processMultipleFiles
        [("a", demoDoc2), ("b", demoDoc2), ("g", demoDoc3)] "es" true
        false [("b", [("es", [("Hello", "Hola")])])]
        demoOracle).globalTranslations (hashString "Hello") = some tv) ∧
      (processMultipleFiles
        [("a", demoDoc2), ("b", demoDoc2), ("g", demoDoc3)] "es" true
        false [("b", [("es", [("Hello", "Hola")])])]
        demoOracle).cacheSaved = true ∧
      lookup3 (processMultipleFiles
        [("a", demoDoc2), ("b", demoDoc2), ("g", demoDoc3)] "es" true
        false [("b", [("es", [("Hello", "Hola")])])]
        demoOracle).cacheAfter "g" "es" (hashString "World")
        = some "World!") :=
  ⟨by decide, by decide, by decide, by decide, by decide, by decide,
    cross_document_reuse
      [("a", demoDoc2), ("b", demoDoc2), ("g", demoDoc3)] "es"
      [("b", [("es", [("Hello", "Hola")])])] demoOracle
      "Hello" ["a", "b"] "b" "Hola" (by decide) (by decide) (by decide)
      (by decide) "World" "World!" ["g"] "g" (by decide) (by decide)
      (by decide) (by decide)⟩

end TranslatorAi
